import Mathlib

/-!
Verification development for the RiftboundOCR deck-list pipeline.

This file gives a shallow embedding of the two algorithmic cores of the
repository and proves properties about them:

* `src/src/ocr/matcher.py` — the `CardMatcher` class: the card database
  held by the matcher (`mappings`, `base_name_mappings`, `chinese_names`),
  the 5-strategy cascade `CardMatcher.match`, and `CardMatcher.match_decklist`
  with its accuracy accounting.
* `src/src/ocr/parser.py` — the post-OCR logic of the two-stage parser:
  `classify_section_type`, `detect_duplicate_sections`, the quantity parsing
  of `ocr_card_box`, the Stage-2 extraction loop, `deduplicate_cards`, and the
  section consolidation of `parse_with_two_stage`.

External collaborators (the OCR engines, OpenCV, and the `rapidfuzz` fuzzy
scorer) are not code of this repository; their outputs appear as function
arguments, and the fuzzy scorer is modelled after the spec's description
("a normalized edit-distance ratio scorer").  Python runtime errors that the
embedded code can raise (IndexError / KeyError) are modelled with `Except`.
Machine floats (`match_score`, `accuracy`, `confidence`) are modelled as `ℚ`:
every concrete value the embedded code puts in them is produced by exact
arithmetic on small integers.
-/

/-! ### String utilities

Python compares strings with `<`/`<=` lexicographically by code point and
tests substrings with `in`.  We implement both as structural recursions on
`List Char` so that they evaluate inside the kernel, and later bridge the
comparison to Mathlib's linear order on `String`.
-/

/-- Lexicographic strict comparison of char lists by code point,
the order Python uses for `str < str`. -/
def strLtB : List Char → List Char → Bool
  | [], [] => false
  | [], _ :: _ => true
  | _ :: _, [] => false
  | c :: cs, d :: ds => if c < d then true else if d < c then false else strLtB cs ds

/-- Python's `a <= b` on strings: not `b < a`. -/
def strLeB (a b : String) : Bool := !(strLtB b.toList a.toList)

/-- Does the first list start with the second? -/
def leadsWith : List Char → List Char → Bool
  | _, [] => true
  | [], _ :: _ => false
  | c :: cs, d :: ds => c == d && leadsWith cs ds

/-- Substring occurrence test on char lists. -/
def containsSub : List Char → List Char → Bool
  | [], key => key.isEmpty
  | c :: rest, key => leadsWith (c :: rest) key || containsSub rest key

/-- Python's `key in hay` substring test. -/
def containsStr (hay key : String) : Bool := containsSub hay.toList key.toList

/-! ### Association lists

Python dicts are modelled as association lists with unique keys in insertion
order; lookup returns the first binding, update rewrites the binding in place
(which is what mutating the value object of a dict key does to the dict). -/

/-- Dict lookup: first binding of the key. -/
def lookupAssoc {β : Type} (l : List (String × β)) (k : String) : Option β :=
  (l.find? (fun p => p.1 == k)).map (·.2)

/-- Replace the value stored under a key, keeping binding order. -/
def updateAssoc {β : Type} (l : List (String × β)) (k : String) (v : β) :
    List (String × β) :=
  l.map (fun p => if p.1 == k then (p.1, v) else p)

/-! ### First-seen deduplication of a list of names

Helper used to state what Python's insertion-ordered dict keys are.  Defined
with explicit fuel so that it is structurally recursive (and hence evaluates
in the kernel); `dedupNames_cons` recovers the natural defining equation. -/

/-- Fuel-indexed worker for `dedupNames`. -/
def dnGo : Nat → List String → List String
  | _, [] => []
  | 0, _ :: _ => []
  | f + 1, n :: ns => n :: dnGo f (ns.filter (fun m => !(m == n)))

/-- The distinct elements of a list of names, in first-seen order. -/
def dedupNames (l : List String) : List String := dnGo l.length l

/-! ### The card database (`CardMatcher.__init__`, matcher.py lines 12-51)

One CSV row per card; rows sharing `name_cn` accumulate: the dict value is a
single record dict, or a list of record dicts once a duplicate name arrives.
`CardEntry` mirrors that single-or-list shape, since `CardMatcher.match`
branches on `isinstance(..., list)` and mutates only the list case. -/

structure CardData where
  name_en : String
  card_number : Option String
  type_en : String
  domain_en : String
  cost : String
  rarity_en : String
  image_url_en : String
deriving DecidableEq

/-- A value of the `mappings` dict: one record or a list of records. -/
inductive CardEntry where
  | single (d : CardData)
  | multi (ds : List CardData)
deriving DecidableEq

/-- `[v] if not isinstance(v, list) else v` (matcher.py lines 66, 88, 109, 166). -/
def entryList : CardEntry → List CardData
  | .single d => [d]
  | .multi ds => ds

/-- The matcher's shared state: `self.mappings`, `self.base_name_mappings`,
`self.chinese_names`. -/
structure Db where
  mappings : List (String × CardEntry)
  base_name_mappings : List (String × List String)
  chinese_names : List String
deriving DecidableEq

/-- The sort key `x.get('card_number', 'ZZZ')` (matcher.py lines 69, 91, 112, 145, 169). -/
def sortKey (d : CardData) : String := d.card_number.getD "ZZZ"

/-- The comparison `list.sort(key=...)` uses: `<=` on the sort keys. -/
def cardLe (a b : CardData) : Prop := strLeB (sortKey a) (sortKey b) = true

instance : DecidableRel cardLe := fun a b => by unfold cardLe; infer_instance

/-- Python's stable `list.sort(key=lambda x: x.get('card_number', 'ZZZ'))`. -/
def pySortCards (l : List CardData) : List CardData := l.insertionSort cardLe

/-! ### The fuzzy scorer

`rapidfuzz.fuzz.ratio` / `process.extractOne` are an external library, not
code of this repository.  Modelled from the spec: "fuzzy-match ... using a
normalized edit-distance ratio scorer; accept the best candidate at or above
`threshold`" — the indel-distance ratio `100 * (1 - dist / (|a| + |b|))`,
best candidate winning, first seen winning ties, candidates scoring below the
cutoff ignored. -/

/-- Fuel-indexed indel (insertion/deletion) edit distance. -/
def indelGo : Nat → List Char → List Char → Nat
  | _, [], ys => ys.length
  | _, x :: xs, [] => (x :: xs).length
  | 0, _ :: _, _ :: _ => 0
  | f + 1, x :: xs, y :: ys =>
      if x = y then indelGo f xs ys
      else 1 + min (indelGo f xs (y :: ys)) (indelGo f (x :: xs) ys)

/-- Indel edit distance between two char lists. -/
def indelDist (xs ys : List Char) : Nat := indelGo (xs.length + ys.length) xs ys

/-- Normalized indel similarity, 0-100. -/
def fuzzScore (a b : String) : ℚ :=
  let n := a.length + b.length
  if n = 0 then 100 else 100 * (1 - (indelDist a.toList b.toList : ℚ) / (n : ℚ))

/-- Model of `rapidfuzz.process.extractOne(query, cands, scorer=fuzz.ratio,
score_cutoff=cutoff)`: best strictly-improving candidate at or above the
cutoff, earliest candidate winning ties. -/
def extractOne (query : String) (cands : List String) (cutoff : ℚ) :
    Option (String × ℚ) :=
  cands.foldl
    (fun best c =>
      let s := fuzzScore query c
      if s < cutoff then best
      else
        match best with
        | none => some (c, s)
        | some (_, bs) => if bs < s then some (c, s) else best)
    none

/-! ### `CardMatcher.match` (matcher.py lines 53-182) -/

/-- The dict `CardMatcher.match` returns: the spread `**best_match` plus
`name_cn`, optionally `matched_to`, `match_score` and `match_type`. -/
structure MatchResult where
  name_en : String
  card_number : Option String
  type_en : String
  domain_en : String
  cost : String
  rarity_en : String
  image_url_en : String
  name_cn : String
  matched_to : Option String
  match_score : ℚ
  match_type : String
deriving DecidableEq

/-- Build the returned dict from the winning record. -/
def mkResult (d : CardData) (name_cn : String) (matched_to : Option String)
    (score : ℚ) (mtype : String) : MatchResult :=
  { name_en := d.name_en, card_number := d.card_number, type_en := d.type_en,
    domain_en := d.domain_en, cost := d.cost, rarity_en := d.rarity_en,
    image_url_en := d.image_url_en, name_cn := name_cn,
    matched_to := matched_to, match_score := score, match_type := mtype }

/-- The comma variant `chinese_name[:p] + ', ' + chinese_name[p:]`. -/
def commaVariant (name : String) (p : Nat) : String :=
  name.take p ++ ", " ++ name.drop p

/-- Strategy 3's scan (matcher.py lines 104-108): for `len(name) >= 3`, try
split positions 1, 2, 3 (only those `< len(name)`) and return the first comma
variant that is a key of `mappings`, with its entry. -/
def commaGo (db : Db) (name : String) : List Nat → Option (String × CardEntry)
  | [] => none
  | p :: ps =>
      if p < name.length then
        match lookupAssoc db.mappings (commaVariant name p) with
        | some e => some (commaVariant name p, e)
        | none => commaGo db name ps
      else commaGo db name ps

/-- Guarded entry to strategy 3. -/
def commaTry (db : Db) (name : String) : Option (String × CardEntry) :=
  if 3 ≤ name.length then commaGo db name [1, 2, 3] else none

/-- Collect `self.mappings[full_name]` over a base-name group, in order
(matcher.py lines 86-89 and 140-143); a missing full name raises `KeyError`. -/
def collectMatches (db : Db) : List String → Except String (List CardData)
  | [] => .ok []
  | fn :: rest =>
      match lookupAssoc db.mappings fn with
      | none => .error "KeyError"
      | some e =>
          match collectMatches db rest with
          | .error msg => .error msg
          | .ok tail => .ok (entryList e ++ tail)

/-- The effect of `exact_matches.sort()` / `matches.sort()` on the shared
database (matcher.py lines 69, 112, 169): when the value stored under the key
is a list, the sort happens in place on that stored list, so the dict now
holds the sorted list; a single (non-list) value is wrapped in a fresh list
and the store is untouched. -/
def storeSorted (db : Db) (key : String) (e : CardEntry)
    (sorted : List CardData) : Db :=
  match e with
  | .single _ => db
  | .multi _ => { db with mappings := updateAssoc db.mappings key (.multi sorted) }

/-- `CardMatcher.match(chinese_name, threshold)` (matcher.py lines 53-182).

The Python method mutates the shared database: in the `exact_full`,
`comma_inserted` and `fuzzy_full` branches, `exact_matches` / `matches`
aliases the list stored in `self.mappings` whenever that stored value is a
list, and `.sort()` reorders it in place.  The embedding therefore returns
the resulting database next to the result; `[0]` on an empty list raises
`IndexError`. -/
def matchRun (db : Db) (chinese_name : String) (threshold : ℚ) :
    Except String (Option MatchResult × Db) :=
  -- Strategy 1: exact full name match
  match lookupAssoc db.mappings chinese_name with
  | some e =>
      match pySortCards (entryList e) with
      | [] => .error "IndexError"
      | best :: rest =>
          .ok (some (mkResult best chinese_name none 100 "exact_full"),
            storeSorted db chinese_name e (best :: rest))
  | none =>
  -- Strategy 2: base name match
  match lookupAssoc db.base_name_mappings chinese_name with
  | some full_names =>
      (match collectMatches db full_names with
       | .error msg => .error msg
       | .ok all_matches =>
           match pySortCards all_matches with
           | [] => .error "IndexError"
           | best :: _ =>
               match full_names.head? with
               | none => .error "IndexError"
               | some f0 =>
                   .ok (some (mkResult best chinese_name (some f0) 100
                              "base_name"), db))
  | none =>
  -- Strategy 3: comma insertion
  match commaTry db chinese_name with
  | some (variant, e) =>
      (match pySortCards (entryList e) with
       | [] => .error "IndexError"
       | best :: rest =>
           .ok (some (mkResult best chinese_name (some variant) 100
                      "comma_inserted"), storeSorted db variant e (best :: rest)))
  | none =>
  -- Strategy 4: fuzzy match on base names
  match extractOne chinese_name (db.base_name_mappings.map (·.1)) threshold with
  | some (matched_base, score) =>
      (match lookupAssoc db.base_name_mappings matched_base with
       | none => .error "KeyError"
       | some full_names =>
           match collectMatches db full_names with
           | .error msg => .error msg
           | .ok all_matches =>
               match pySortCards all_matches with
               | [] => .error "IndexError"
               | best :: _ =>
                   match full_names.head? with
                   | none => .error "IndexError"
                   | some f0 =>
                       .ok (some (mkResult best chinese_name (some f0) score
                                  "fuzzy_base_name"), db))
  | none =>
  -- Strategy 5: fuzzy match on full names
  match extractOne chinese_name db.chinese_names threshold with
  | some (matched_name, score) =>
      (match lookupAssoc db.mappings matched_name with
       | none => .error "KeyError"
       | some e =>
           match pySortCards (entryList e) with
           | [] => .error "IndexError"
           | best :: rest =>
               .ok (some (mkResult best chinese_name (some matched_name) score
                          "fuzzy_full"), storeSorted db matched_name e (best :: rest)))
  | none => .ok (none, db)

/-! ### Cards flowing from the parser to the matcher

Card dicts built by the Stage-2 loop of `parse_with_two_stage` carry
`name_cn`, `quantity`, `confidence` (plus diagnostics the matcher never
reads).  `match_decklist` reads exactly these three fields. -/

structure PCard where
  name_cn : String
  quantity : Nat
  confidence : ℚ
deriving DecidableEq

/-- The five card lists of `result['cards']` (parser.py lines 496-502). -/
structure DeckCards where
  legend : List PCard
  main_deck : List PCard
  battlefields : List PCard
  runes : List PCard
  side_deck : List PCard
deriving DecidableEq

/-- The parsed-decklist dict `parse_with_two_stage` returns (metadata plus
`cards`). -/
structure ParsedDecklist where
  player : Option String
  legend_name : Option String
  event : Option String
  date : Option String
  placement : Option Int
  cards : DeckCards
deriving DecidableEq

/-! ### `CardMatcher.match_decklist` (matcher.py lines 184-254) -/

/-- One matched entry of an output section list (matcher.py lines 224-234). -/
structure MCard where
  name_cn : String
  name_en : String
  card_number : Option String
  type_en : String
  quantity : Nat
  match_score : ℚ
  match_type : String
  ocr_confidence : ℚ
  image_url_en : String
deriving DecidableEq

/-- One entry of `matched['unmatched']` (matcher.py lines 236-240); the
`section'` field is the dict's `section` key (a Lean keyword). -/
structure UCard where
  name_cn : String
  section' : String
  quantity : Nat
deriving DecidableEq

/-- `matched['stats']` (matcher.py lines 248-252). -/
structure Stats where
  total_cards : Nat
  matched_cards : Nat
  accuracy : ℚ
deriving DecidableEq

/-- `matched['metadata']`. -/
structure Metadata where
  player : Option String
  legend_name : Option String
  event : Option String
  date : Option String
  placement : Option Int
  legend_name_en : Option String
deriving DecidableEq

/-- The flattened structure `match_decklist` returns. -/
structure MatchedDecklist where
  metadata : Metadata
  legend : List MCard
  main_deck : List MCard
  battlefields : List MCard
  runes : List MCard
  side_deck : List MCard
  unmatched : List UCard
  stats : Stats
deriving DecidableEq

/-- Assemble one matched output entry (matcher.py lines 224-234). -/
def mkMCard (card : PCard) (mr : MatchResult) : MCard :=
  { name_cn := card.name_cn, name_en := mr.name_en,
    card_number := mr.card_number, type_en := mr.type_en,
    quantity := card.quantity, match_score := mr.match_score,
    match_type := mr.match_type, ocr_confidence := card.confidence,
    image_url_en := mr.image_url_en }

/-- The inner loop of `match_decklist` over one section's cards
(matcher.py lines 216-240), threading the database through each `match`
call; matched entries go to the section list, failures to `unmatched`. -/
def matchSection (db : Db) (sec : String) :
    List PCard → Except String (List MCard × List UCard × Db)
  | [] => .ok ([], [], db)
  | c :: rest =>
      match matchRun db c.name_cn 85 with
      | .error msg => .error msg
      | .ok (res, db₁) =>
          match matchSection db₁ sec rest with
          | .error msg => .error msg
          | .ok (ms, us, db₂) =>
              match res with
              | some mr => .ok (mkMCard c mr :: ms, us, db₂)
              | none =>
                  .ok (ms, { name_cn := c.name_cn, section' := sec,
                             quantity := c.quantity } :: us, db₂)

/-- `CardMatcher.match_decklist(parsed_decklist)` (matcher.py lines 184-254):
an optional legend-name match for the metadata, then the five sections in
dict order, then the stats.  `total_cards` reported is matched plus
unmatched; accuracy is `matched / total * 100`, or `0.0` for an empty total. -/
def match_decklist (db : Db) (pd : ParsedDecklist) :
    Except String (MatchedDecklist × Db) :=
  match (match pd.legend_name with
         | none => Except.ok ((none : Option String), db)
         | some ln =>
             if ln = "" then Except.ok ((none : Option String), db)
             else
               match matchRun db ln 85 with
               | .error msg => .error msg
               | .ok (r, db') =>
                   Except.ok (r.map (fun mr => mr.name_en), db') :
           Except String (Option String × Db)) with
  | .error msg => .error msg
  | .ok (legend_name_en, db₀) =>
  match matchSection db₀ "legend" pd.cards.legend with
  | .error msg => .error msg
  | .ok (lm, lu, db₁) =>
  match matchSection db₁ "main_deck" pd.cards.main_deck with
  | .error msg => .error msg
  | .ok (mm, mu, db₂) =>
  match matchSection db₂ "battlefields" pd.cards.battlefields with
  | .error msg => .error msg
  | .ok (bm, bu, db₃) =>
  match matchSection db₃ "runes" pd.cards.runes with
  | .error msg => .error msg
  | .ok (rm, ru, db₄) =>
  match matchSection db₄ "side_deck" pd.cards.side_deck with
  | .error msg => .error msg
  | .ok (sm, su, db₅) =>
      let unmatched := lu ++ mu ++ bu ++ ru ++ su
      let total_cards := lm.length + mm.length + bm.length + rm.length + sm.length
      let matched_cards := total_cards
      let total_with := total_cards + unmatched.length
      .ok ({ metadata := { player := pd.player, legend_name := pd.legend_name,
                           event := pd.event, date := pd.date,
                           placement := pd.placement,
                           legend_name_en := legend_name_en },
             legend := lm, main_deck := mm, battlefields := bm, runes := rm,
             side_deck := sm, unmatched := unmatched,
             stats := { total_cards := total_with,
                        matched_cards := matched_cards,
                        accuracy := if 0 < total_with then
                            (matched_cards : ℚ) / (total_with : ℚ) * 100
                          else 0 } }, db₅)

/-! ### `classify_section_type` (parser.py lines 856-901)

The function crops a header strip and OCRs it; the OCR engine is an external
collaborator, so the embedding takes the concatenated header text
`normalized` directly.  The keyword lists are `HEADER_KEYWORDS`
(parser.py lines 780-786); the fallback compares the section's bounding-box
area `w * h` against the detected areas `all_areas` (which
`parse_with_two_stage` line 569 fills with the contour areas from
`detect_section_regions`), indexing `sorted_areas[0..2]` — an out-of-range
index raises `IndexError`. -/

def classify_section_type (normalized : String)
    (section_box : Nat × Nat × Nat × Nat) (index : Nat)
    (all_areas : List ℚ) (total_sections : Nat) : Except String String :=
  let w := section_box.2.2.1
  let h := section_box.2.2.2
  let fallback : Except String String :=
    let sorted_areas := all_areas.insertionSort (fun a b => b ≤ a)
    let section_area : ℚ := (w : ℚ) * (h : ℚ)
    match sorted_areas.get? 0 with
    | none => .error "IndexError"
    | some a0 =>
        if section_area = a0 then .ok "legend_main"
        else
          match sorted_areas.get? 1 with
          | none => .error "IndexError"
          | some a1 =>
              if section_area = a1 then .ok "battlefields"
              else
                match sorted_areas.get? 2 with
                | none => .error "IndexError"
                | some a2 =>
                    if section_area = a2 then .ok "runes"
                    else if index = total_sections then .ok "side_deck"
                    else .ok "runes"
  if normalized = "" then fallback
  else if ["传奇"].any (fun k => containsStr normalized k) then .ok "legend_main"
  else if ["战场"].any (fun k => containsStr normalized k) then .ok "battlefields"
  else if ["符文"].any (fun k => containsStr normalized k) then .ok "runes"
  else if ["备牌"].any (fun k => containsStr normalized k) then .ok "side_deck"
  else if ["主牌"].any (fun k => containsStr normalized k) then .ok "legend_main"
  else fallback

/-! ### `detect_duplicate_sections` (parser.py lines 810-853) -/

/-- A classified section as the collapser sees it: its role (`section['type']`)
and an opaque payload standing for the rest of the section dict. -/
structure Sec where
  role : String
  payload : Nat
deriving DecidableEq

/-- One entry of the returned `duplicates` list (parser.py lines 839-844). -/
structure DupInfo where
  dtype : String
  count : Nat
  kept_index : Nat
  removed_indices : List Nat
deriving DecidableEq

/-- Result of `detect_duplicate_sections`. -/
structure DupResult where
  unique_sections : List Sec
  duplicates : List DupInfo
deriving DecidableEq

/-- The insertion-ordered dict `by_type` (parser.py lines 821-826): keys are
the roles in first-seen order, each holding the `(index, section)` pairs of
that role in detection order. -/
def byType (sections : List Sec) : List (String × List (Nat × Sec)) :=
  (dedupNames (sections.map Sec.role)).map
    (fun ro => (ro, sections.enum.filter (fun p => p.2.role == ro)))

/-- `detect_duplicate_sections(sections, full_image)` (parser.py lines
810-853): for every role keep the first occurrence; roles with more than one
occurrence additionally record a duplicates entry with the total count, the
kept index and the removed indices.  The image argument is unused by the
logic. -/
def detect_duplicate_sections (sections : List Sec) : DupResult :=
  let groups := byType sections
  { unique_sections := groups.filterMap (fun g => (g.2.head?).map (·.2)),
    duplicates := groups.filterMap (fun g =>
      if 2 ≤ g.2.length then
        (g.2.head?).map (fun h =>
          { dtype := g.1, count := g.2.length, kept_index := h.1,
            removed_indices := g.2.tail.map (·.1) })
      else none) }

/-! ### `ocr_card_box` quantity/confidence logic (parser.py lines 413-460)

Name extraction and the quantity-region OCR are external collaborators; the
embedding takes the extracted name (`extract_name_with_fallback`'s first
component) and the joined quantity text, and performs the quantity parsing
and the construction of the card dict. -/

/-- First maximal digit run of a string, as `re.search(r'\d+')` finds it. -/
def firstDigitRun (s : String) : Option Nat :=
  let run := (s.toList.dropWhile (fun c => !c.isDigit)).takeWhile (fun c => c.isDigit)
  if run.isEmpty then none
  else some (run.foldl (fun acc c => acc * 10 + (c.toNat - 48)) 0)

/-- The quantity parsing of `ocr_card_box` (parser.py lines 440-449): default
1; a digit run parsed from the quantity text is used only when it lies in
`[1, 12]`. -/
def parse_quantity (qty_text : String) : Nat :=
  if qty_text = "" then 1
  else
    match firstDigitRun qty_text with
    | none => 1
    | some v => if 1 ≤ v ∧ v ≤ 12 then v else 1

/-- The card dict `ocr_card_box` returns (minus diagnostics): note
`confidence = 0.0` is a constant (parser.py line 451). -/
structure RawCard where
  name_cn : Option String
  quantity : Nat
  confidence : ℚ
deriving DecidableEq

/-- `ocr_card_box`, post-OCR: build the card dict from the extracted name and
quantity text. -/
def ocr_card_box (card_name : Option String) (qty_text : String) : RawCard :=
  { name_cn := card_name, quantity := parse_quantity qty_text, confidence := 0 }

/-! ### Stage 2 of `parse_with_two_stage` (parser.py lines 597-618) -/

/-- The external OCR readings for one detected card box: the name that
`extract_name_with_fallback` produced (possibly none) and the joined
quantity-region text. -/
structure BoxOcr where
  card_name : Option String
  qty_text : String
deriving DecidableEq

/-- One classified, deduplicated section together with its card boxes' OCR
output. -/
structure SecInput where
  stype : String
  boxes : List BoxOcr
deriving DecidableEq

/-- Python truthiness of the extracted name (`if card_data['name_cn']:`). -/
def truthyName : Option String → Option String
  | none => none
  | some s => if s = "" then none else some s

/-- The per-section body of the Stage-2 loop (parser.py lines 606-616):
OCR each card box (`card_data = ocr_card_box(...)`), keep cards with a truthy
name, and force quantity 1 in battlefields sections. -/
def sectionCards (stype : String) (boxes : List BoxOcr) : List PCard :=
  boxes.filterMap (fun b =>
    match truthyName (ocr_card_box b.card_name b.qty_text).name_cn with
    | none => none
    | some n =>
        some { name_cn := n,
               quantity := if stype = "battlefields" then 1
                 else (ocr_card_box b.card_name b.qty_text).quantity,
               confidence := (ocr_card_box b.card_name b.qty_text).confidence })

/-- The Stage-2 loop: build `section_groups` (parser.py lines 597-618). -/
def stage2 (inp : List SecInput) : List (String × List PCard) :=
  inp.map (fun s => (s.stype, sectionCards s.stype s.boxes))

/-! ### `deduplicate_cards` and consolidation (parser.py lines 623-685) -/

/-- `unique[name]['quantity'] = max(unique[name]['quantity'], card['quantity'])`:
the first card with the given name — the one object also referenced from the
ordered output — gets its quantity raised. -/
def bumpQty (n : String) (q : Nat) : List PCard → List PCard
  | [] => []
  | c :: cs =>
      if c.name_cn = n then { c with quantity := max c.quantity q } :: cs
      else c :: bumpQty n q cs

/-- The loop of `deduplicate_cards` (parser.py lines 626-635): `acc` is the
`ordered` list (whose entries are the same objects as the dict values). -/
def dedupAux (acc : List PCard) : List PCard → List PCard
  | [] => acc
  | c :: cs =>
      if c.name_cn = "" then dedupAux acc cs
      else if (acc.map (·.name_cn)).contains c.name_cn then
        dedupAux (bumpQty c.name_cn c.quantity acc) cs
      else dedupAux (acc ++ [c]) cs

/-- `deduplicate_cards(cards)` (parser.py lines 623-636). -/
def deduplicate_cards (cards : List PCard) : List PCard := dedupAux [] cards

/-- The legend/main-deck split (parser.py lines 638-649): `legend_groups[0]`
is `primary`; its head (if any) becomes the single legend card with quantity
forced to 1, the rest of `primary` and all extra legend groups flow into the
main deck. -/
def legendSplit (legend_groups : List (List PCard)) : List PCard × List PCard :=
  match legend_groups with
  | [] => ([], [])
  | primary :: extras =>
      match primary with
      | [] => ([], extras.flatten)
      | c :: rest => ([{ c with quantity := 1 }], rest ++ extras.flatten)

/-- The consolidation stage of `parse_with_two_stage` (parser.py lines
638-685), mapping the classified `section_groups` to the five card lists. -/
def consolidate (groups : List (String × List PCard)) : DeckCards :=
  let legendPair : List PCard × List PCard :=
    legendSplit ((groups.filter (fun g => g.1 = "legend_main")).map (·.2))
  let battlefield_cards :=
    ((groups.filter (fun g => g.1 = "battlefields")).map (·.2)).flatten
  let rune_cards :=
    ((groups.filter (fun g => g.1 = "runes")).map (·.2)).flatten
  let side_deck_candidates :=
    (groups.filter (fun g => g.1 = "side_deck")).map (·.2)
  let rune_like :=
    (side_deck_candidates.map (fun cs =>
      cs.filter (fun c => containsStr c.name_cn "符文"))).flatten
  let side_normal :=
    (side_deck_candidates.map (fun cs =>
      cs.filter (fun c => !(containsStr c.name_cn "符文")))).flatten
  let handled := ["legend_main", "battlefields", "runes", "side_deck"]
  let overflow :=
    ((groups.filter (fun g => !(handled.contains g.1))).map (·.2)).flatten
  { legend := legendPair.1,
    main_deck := deduplicate_cards (legendPair.2 ++ overflow),
    battlefields := (deduplicate_cards battlefield_cards).take 3,
    runes := deduplicate_cards (rune_cards ++ rune_like),
    side_deck := deduplicate_cards side_normal }

/-! ### Specification-side helper definitions

Used only to *state* properties of the embedded functions. -/

/-- Largest quantity any card with the given name carries in the list. -/
def maxQty (n : String) : List PCard → Nat
  | [] => 0
  | c :: cs => if c.name_cn = n then max c.quantity (maxQty n cs) else maxQty n cs

/-- Quantity stored under a name: the first entry with that name, or 0. -/
def lookupQty : List PCard → String → Nat
  | [], _ => 0
  | c :: cs, n => if c.name_cn = n then c.quantity else lookupQty cs n

/-! ### Concrete instances used by witnesses and counterexamples -/

/-- A card record with card number 001. -/
def rec001 : CardData :=
  { name_en := "Yi"
    card_number := some "001"
    type_en := "Unit"
    domain_en := "Order"
    cost := "2"
    rarity_en := "Rare"
    image_url_en := "url1" }

/-- A card record with card number 002. -/
def rec002 : CardData :=
  { name_en := "Yi Reprint"
    card_number := some "002"
    type_en := "Unit"
    domain_en := "Order"
    cost := "2"
    rarity_en := "Rare"
    image_url_en := "url2" }

/-- A database storing two records under one full name, in an order not
sorted by card number. -/
def dbMut : Db :=
  { mappings := [("甲", .multi [rec002, rec001])]
    base_name_mappings := [("甲", ["甲"])]
    chinese_names := ["甲"] }

/-- `dbMut` after `match("甲")`: the stored list has been reordered in place. -/
def dbMutAfter : Db :=
  { mappings := [("甲", .multi [rec001, rec002])]
    base_name_mappings := [("甲", ["甲"])]
    chinese_names := ["甲"] }

/-- Scenario C database: full name "易, 锋芒毕现" present, "易锋芒毕现" absent. -/
def dbComma : Db :=
  { mappings := [("易, 锋芒毕现", .single rec001)]
    base_name_mappings := [("易", ["易, 锋芒毕现"])]
    chinese_names := ["易, 锋芒毕现"] }

/-- A one-card database whose fuzzy candidate pools are empty. -/
def dbOne : Db :=
  { mappings := [("甲", .single rec001)]
    base_name_mappings := []
    chinese_names := [] }

/-- A parsed decklist with one matchable and one unmatchable card. -/
def pdTwo : ParsedDecklist :=
  { player := some "p"
    legend_name := none
    event := none
    date := none
    placement := none
    cards :=
      { legend := []
        main_deck := [⟨"甲", 3, 0⟩, ⟨"乙", 1, 0⟩]
        battlefields := []
        runes := []
        side_deck := [] } }

/-! ## Theorems

### The string comparison agrees with the linear order on `String` -/

theorem strLtB_iff_lex :
    ∀ cs ds : List Char, strLtB cs ds = true ↔ List.Lex (· < ·) cs ds := by
  intro cs
  induction cs with
  | nil =>
      intro ds
      cases ds with
      | nil =>
          simp only [strLtB, Bool.false_eq_true, false_iff]
          intro h; cases h
      | cons d ds =>
          simp only [strLtB, true_iff]
          exact List.Lex.nil
  | cons c cs ih =>
      intro ds
      cases ds with
      | nil =>
          simp only [strLtB, Bool.false_eq_true, false_iff]
          intro h; cases h
      | cons d ds =>
          by_cases hcd : c < d
          · simp only [strLtB, if_pos hcd, true_iff]
            exact List.Lex.rel hcd
          · by_cases hdc : d < c
            · simp only [strLtB, if_neg hcd, if_pos hdc, Bool.false_eq_true, false_iff]
              intro h
              cases h with
              | cons h => exact lt_irrefl _ hdc
              | rel h => exact hcd h
            · have hEq : c = d := le_antisymm (not_lt.mp hdc) (not_lt.mp hcd)
              subst hEq
              simp only [strLtB, if_neg hcd, if_neg hdc]
              rw [ih ds]
              constructor
              · exact fun h => List.Lex.cons h
              · intro h
                cases h with
                | cons h => exact h
                | rel h => exact absurd h hcd

theorem strLtB_iff_lt (a b : String) : strLtB a.toList b.toList = true ↔ a < b := by
  rw [String.lt_iff_toList_lt]
  exact strLtB_iff_lex a.toList b.toList

theorem strLeB_iff_le (a b : String) : strLeB a b = true ↔ a ≤ b := by
  have hle : (a ≤ b) = ¬ b < a := rfl
  rw [hle, strLeB, ← strLtB_iff_lt b a]
  simp

theorem cardLe_iff (x y : CardData) : cardLe x y ↔ sortKey x ≤ sortKey y := by
  unfold cardLe
  exact strLeB_iff_le _ _

instance : IsTotal CardData cardLe :=
  ⟨fun x y => by
    rw [cardLe_iff, cardLe_iff]
    exact le_total _ _⟩

instance : IsTrans CardData cardLe :=
  ⟨fun x y z hxy hyz => by
    rw [cardLe_iff] at *
    exact le_trans hxy hyz⟩

/-! ### Facts about the Python sort -/

theorem pySortCards_perm (l : List CardData) : (pySortCards l).Perm l :=
  List.perm_insertionSort cardLe l

theorem pySortCards_sorted (l : List CardData) : List.Sorted cardLe (pySortCards l) :=
  List.sorted_insertionSort cardLe l

/-- The head of the sorted list has a minimal sort key. -/
theorem pySortCards_head_min {l : List CardData} {best : CardData}
    {rest : List CardData} (h : pySortCards l = best :: rest) :
    ∀ d ∈ l, sortKey best ≤ sortKey d := by
  intro d hd
  have hmem : d ∈ best :: rest := by
    rw [← h]
    exact ((pySortCards_perm l).mem_iff).mpr hd
  rw [List.mem_cons] at hmem
  rcases hmem with rfl | hmem
  · exact le_refl _
  · have hs := pySortCards_sorted l
    rw [h, List.sorted_cons] at hs
    exact (cardLe_iff _ _).mp (hs.1 d hmem)

/-- The head of the sorted list is one of the sorted elements. -/
theorem pySortCards_head_mem {l : List CardData} {best : CardData}
    {rest : List CardData} (h : pySortCards l = best :: rest) : best ∈ l := by
  have : best ∈ pySortCards l := by rw [h]; exact List.mem_cons_self _ _
  exact ((pySortCards_perm l).mem_iff).mp this

/-- A nonempty list sorts to a nonempty list. -/
theorem pySortCards_ne_nil {l : List CardData} (h : l ≠ []) :
    pySortCards l ≠ [] := by
  intro hc
  exact h (List.eq_nil_of_length_eq_zero
    (((pySortCards_perm l).length_eq).symm.trans (by rw [hc]; rfl)))

/-! ### Claim 6 — exact full-name matches -/

/-- C6: for every name that is a key of the full-name index (with a nonempty
record entry, as the loader guarantees), `match` returns `exact_full` with
score 100, behaves identically for every threshold (so no fuzzy strategy is
ever reached), and returns a record whose sort key
`card_number.get('card_number', 'ZZZ')` is minimal among the records stored
under that name. -/
theorem claim6_exact_full (db : Db) (name : String) (t₁ t₂ : ℚ) (e : CardEntry)
    (hlook : lookupAssoc db.mappings name = some e)
    (hne : entryList e ≠ []) :
    ∃ r db', matchRun db name t₁ = .ok (some r, db') ∧
      r.match_type = "exact_full" ∧ r.match_score = 100 ∧
      matchRun db name t₂ = matchRun db name t₁ ∧
      (∃ d ∈ entryList e, r.card_number = d.card_number ∧ r.name_en = d.name_en) ∧
      ∀ d ∈ entryList e, r.card_number.getD "ZZZ" ≤ sortKey d := by
  cases hs : pySortCards (entryList e) with
  | nil => exact absurd hs (pySortCards_ne_nil hne)
  | cons best rest =>
      have hmin : ∀ d ∈ entryList e, sortKey best ≤ sortKey d :=
        pySortCards_head_min hs
      have hmem : best ∈ entryList e := pySortCards_head_mem hs
      have hrun : ∀ t : ℚ, matchRun db name t =
          .ok (some (mkResult best name none 100 "exact_full"),
            storeSorted db name e (best :: rest)) := by
        intro t
        simp only [matchRun, hlook, hs]
      refine ⟨_, _, hrun t₁, rfl, rfl, (hrun t₂).trans (hrun t₁).symm,
        ⟨best, hmem, rfl, rfl⟩, ?_⟩
      intro d hd
      exact hmin d hd

/-- Witness for C6 at a concrete two-record database. -/
theorem claim6_exact_full_witness :
    ∃ r db', matchRun dbMut "甲" 85 = .ok (some r, db') ∧
      r.match_type = "exact_full" ∧ r.match_score = 100 ∧
      matchRun dbMut "甲" 40 = matchRun dbMut "甲" 85 ∧
      (∃ d ∈ entryList (.multi [rec002, rec001]),
        r.card_number = d.card_number ∧ r.name_en = d.name_en) ∧
      ∀ d ∈ entryList (.multi [rec002, rec001]),
        r.card_number.getD "ZZZ" ≤ sortKey d :=
  claim6_exact_full dbMut "甲" 85 40 (.multi [rec002, rec001]) rfl (by decide)

/-! ### Claim 2 — the database is mutated by `match` -/

/-- C2 (refuting the stated immutability): on the concrete database `dbMut`,
whose stored record list under "甲" is not ordered by card number, the
in-place `exact_matches.sort(...)` of the `exact_full` branch reorders the
stored list, so the mappings after `match("甲")` differ from the mappings
before.  `base_name_mappings` and `chinese_names` are untouched. -/
theorem claim2_match_mutates_database :
    matchRun dbMut "甲" 85
        = .ok (some (mkResult rec001 "甲" none 100 "exact_full"), dbMutAfter)
      ∧ dbMutAfter.mappings ≠ dbMut.mappings
      ∧ dbMutAfter.base_name_mappings = dbMut.base_name_mappings
      ∧ dbMutAfter.chinese_names = dbMut.chinese_names :=
  ⟨rfl, by decide, rfl, rfl⟩

/-! ### Claim 3 — the area fallback of `classify_section_type` -/

/-- C3 (refuting the stated area ranking): the fallback compares the
bounding-box area `w * h` with the list of detected *contour* areas.  With
three sections of contour areas 100, 50, 30, the section holding the largest
contour area (area 100) but a bounding box of 12 × 10 (area 120, as every
real contour has strictly smaller area than its bounding box) is classified
"runes", not "legend_main"; and with a single section the fallback raises
`IndexError` instead of classifying it. -/
theorem claim3_area_fallback_mismatch :
    classify_section_type "" (0, 0, 12, 10) 1 [100, 50, 30] 3 = .ok "runes"
      ∧ classify_section_type "" (0, 0, 12, 10) 1 [100] 1 = .error "IndexError" := by
  constructor <;>
    norm_num [classify_section_type, List.insertionSort, List.orderedInsert]

/-! ### Claim 4 — keyword priority of `classify_section_type` -/

/-- C4 counterexample: a header containing both the main-deck keyword 主牌
and the battlefield keyword 战场 is classified "battlefields", not
"legend_main" — the main-deck rule is evaluated last, not first. -/
theorem claim4_counterexample :
    classify_section_type "主牌战场" (0, 0, 1, 1) 1 [] 1 = .ok "battlefields"
      ∧ "battlefields" ≠ "legend_main" :=
  ⟨rfl, by decide⟩

/-- C4 as amended: for a non-empty header the keyword rules are evaluated
in the order legend (传奇), battlefields (战场), runes (符文), side deck
(备牌), and main deck (主牌) last: 传奇 always wins; otherwise 战场 gives
battlefields; otherwise 符文 gives runes; otherwise 备牌 gives side_deck;
otherwise 主牌 gives legend_main.  Consequently a header containing 主牌
but not 传奇 classifies as legend_main if and only if it contains none of
战场, 符文, 备牌. -/
theorem claim4_keyword_order (normalized : String) (box : Nat × Nat × Nat × Nat)
    (index : Nat) (areas : List ℚ) (total : Nat) (hne : normalized ≠ "") :
    (containsStr normalized "传奇" = true →
        classify_section_type normalized box index areas total = .ok "legend_main")
    ∧ (containsStr normalized "传奇" = false → containsStr normalized "战场" = true →
        classify_section_type normalized box index areas total = .ok "battlefields")
    ∧ (containsStr normalized "传奇" = false → containsStr normalized "战场" = false →
       containsStr normalized "符文" = true →
        classify_section_type normalized box index areas total = .ok "runes")
    ∧ (containsStr normalized "传奇" = false → containsStr normalized "战场" = false →
       containsStr normalized "符文" = false → containsStr normalized "备牌" = true →
        classify_section_type normalized box index areas total = .ok "side_deck")
    ∧ (containsStr normalized "传奇" = false → containsStr normalized "战场" = false →
       containsStr normalized "符文" = false → containsStr normalized "备牌" = false →
       containsStr normalized "主牌" = true →
        classify_section_type normalized box index areas total = .ok "legend_main")
    ∧ (containsStr normalized "传奇" = false → containsStr normalized "主牌" = true →
        (classify_section_type normalized box index areas total = .ok "legend_main"
          ↔ containsStr normalized "战场" = false
            ∧ containsStr normalized "符文" = false
            ∧ containsStr normalized "备牌" = false)) := by
  have c1 : containsStr normalized "传奇" = true →
      classify_section_type normalized box index areas total = .ok "legend_main" := by
    intro h1
    simp only [classify_section_type, List.any_cons, List.any_nil,
      Bool.or_false, h1, if_neg hne]
    simp
  have c2 : containsStr normalized "传奇" = false →
      containsStr normalized "战场" = true →
      classify_section_type normalized box index areas total = .ok "battlefields" := by
    intro h1 h2
    simp only [classify_section_type, List.any_cons, List.any_nil,
      Bool.or_false, h1, h2, if_neg hne]
    simp
  have c3 : containsStr normalized "传奇" = false →
      containsStr normalized "战场" = false → containsStr normalized "符文" = true →
      classify_section_type normalized box index areas total = .ok "runes" := by
    intro h1 h2 h3
    simp only [classify_section_type, List.any_cons, List.any_nil,
      Bool.or_false, h1, h2, h3, if_neg hne]
    simp
  have c4 : containsStr normalized "传奇" = false →
      containsStr normalized "战场" = false → containsStr normalized "符文" = false →
      containsStr normalized "备牌" = true →
      classify_section_type normalized box index areas total = .ok "side_deck" := by
    intro h1 h2 h3 h4
    simp only [classify_section_type, List.any_cons, List.any_nil,
      Bool.or_false, h1, h2, h3, h4, if_neg hne]
    simp
  have c5 : containsStr normalized "传奇" = false →
      containsStr normalized "战场" = false → containsStr normalized "符文" = false →
      containsStr normalized "备牌" = false → containsStr normalized "主牌" = true →
      classify_section_type normalized box index areas total = .ok "legend_main" := by
    intro h1 h2 h3 h4 h5
    simp only [classify_section_type, List.any_cons, List.any_nil,
      Bool.or_false, h1, h2, h3, h4, h5, if_neg hne]
    simp
  refine ⟨c1, c2, c3, c4, c5, fun h1 h5 => ⟨fun heq => ?_, fun hnone =>
    c5 h1 hnone.1 hnone.2.1 hnone.2.2 h5⟩⟩
  have h2 : containsStr normalized "战场" = false := by
    rcases Bool.eq_false_or_eq_true (containsStr normalized "战场") with hb | hb
    · exact absurd (Except.ok.inj ((c2 h1 hb).symm.trans heq)) (by decide)
    · exact hb
  have h3 : containsStr normalized "符文" = false := by
    rcases Bool.eq_false_or_eq_true (containsStr normalized "符文") with hb | hb
    · exact absurd (Except.ok.inj ((c3 h1 h2 hb).symm.trans heq)) (by decide)
    · exact hb
  have h4 : containsStr normalized "备牌" = false := by
    rcases Bool.eq_false_or_eq_true (containsStr normalized "备牌") with hb | hb
    · exact absurd (Except.ok.inj ((c4 h1 h2 h3 hb).symm.trans heq)) (by decide)
    · exact hb
  exact ⟨h2, h3, h4⟩

/-- Witness for C4 as amended: one concrete header per keyword rule, in
particular 主牌 together with 符文 classifies as runes and 主牌 together
with 备牌 as side_deck. -/
theorem claim4_keyword_order_witness :
    classify_section_type "传奇牌" (0, 0, 1, 1) 1 [] 1 = .ok "legend_main"
      ∧ classify_section_type "战场牌" (0, 0, 1, 1) 1 [] 1 = .ok "battlefields"
      ∧ classify_section_type "主牌符文" (0, 0, 1, 1) 1 [] 1 = .ok "runes"
      ∧ classify_section_type "主牌备牌" (0, 0, 1, 1) 1 [] 1 = .ok "side_deck"
      ∧ classify_section_type "主牌" (0, 0, 1, 1) 1 [] 1 = .ok "legend_main" :=
  ⟨(claim4_keyword_order "传奇牌" (0, 0, 1, 1) 1 [] 1 (by decide)).1 (by decide),
   (claim4_keyword_order "战场牌" (0, 0, 1, 1) 1 [] 1 (by decide)).2.1
     (by decide) (by decide),
   (claim4_keyword_order "主牌符文" (0, 0, 1, 1) 1 [] 1 (by decide)).2.2.1
     (by decide) (by decide) (by decide),
   (claim4_keyword_order "主牌备牌" (0, 0, 1, 1) 1 [] 1 (by decide)).2.2.2.1
     (by decide) (by decide) (by decide) (by decide),
   (claim4_keyword_order "主牌" (0, 0, 1, 1) 1 [] 1 (by decide)).2.2.2.2.1
     (by decide) (by decide) (by decide) (by decide) (by decide)⟩

/-! ### Claim 8 — comma insertion -/

/-- C8: for a name of length at least 3 matching neither the full-name index
nor the base-name index, the first split position among 1, 2, 3 (those below
the name's length) whose comma variant is a key of the full-name index wins:
`match` returns `comma_inserted` with score 100 and `matched_to` equal to that
comma variant. -/
theorem claim8_comma_inserted (db : Db) (t : ℚ) (name : String) (p : Nat)
    (e : CardEntry)
    (hfull : lookupAssoc db.mappings name = none)
    (hbase : lookupAssoc db.base_name_mappings name = none)
    (hlen : 3 ≤ name.length)
    (hp : p ∈ [1, 2, 3])
    (hplt : p < name.length)
    (hvar : lookupAssoc db.mappings (commaVariant name p) = some e)
    (hne : entryList e ≠ [])
    (hearlier : ∀ q ∈ [1, 2, 3], q < p →
        lookupAssoc db.mappings (commaVariant name q) = none) :
    ∃ r db', matchRun db name t = .ok (some r, db') ∧
      r.match_type = "comma_inserted" ∧ r.match_score = 100 ∧
      r.matched_to = some (commaVariant name p) := by
  have hct : commaTry db name = some (commaVariant name p, e) := by
    rw [commaTry, if_pos hlen]
    have hp' : p = 1 ∨ p = 2 ∨ p = 3 := by simpa using hp
    rcases hp' with rfl | rfl | rfl
    · simp only [commaGo, if_pos hplt, hvar]
    · have h1 : lookupAssoc db.mappings (commaVariant name 1) = none :=
        hearlier 1 (by simp) (by omega)
      simp only [commaGo, if_pos (show 1 < name.length by omega), h1,
        if_pos hplt, hvar]
    · have h1 : lookupAssoc db.mappings (commaVariant name 1) = none :=
        hearlier 1 (by simp) (by omega)
      have h2 : lookupAssoc db.mappings (commaVariant name 2) = none :=
        hearlier 2 (by simp) (by omega)
      simp only [commaGo, if_pos (show 1 < name.length by omega),
        if_pos (show 2 < name.length by omega), h1, h2, if_pos hplt, hvar]
  cases hs : pySortCards (entryList e) with
  | nil => exact absurd hs (pySortCards_ne_nil hne)
  | cons best rest =>
      refine ⟨mkResult best name (some (commaVariant name p)) 100 "comma_inserted",
        storeSorted db (commaVariant name p) e (best :: rest), ?_, rfl, rfl, rfl⟩
      simp only [matchRun, hfull, hbase, hct, hs]

/-- Witness for C8, Scenario C: the database holds "易, 锋芒毕现" but not
"易锋芒毕现"; matching the unbroken name yields `comma_inserted`, score 100. -/
theorem claim8_comma_inserted_witness :
    ∃ r db', matchRun dbComma "易锋芒毕现" 85 = .ok (some r, db') ∧
      r.match_type = "comma_inserted" ∧ r.match_score = 100 ∧
      r.matched_to = some (commaVariant "易锋芒毕现" 1) :=
  claim8_comma_inserted dbComma 85 "易锋芒毕现" 1 (.single rec001)
    rfl rfl (by decide) (by decide) (by decide) (by decide) (by decide)
    (by decide)

/-! ### Facts about `dedupNames` -/

theorem dnGo_fuel : ∀ (f₁ f₂ : Nat) (l : List String),
    l.length ≤ f₁ → l.length ≤ f₂ → dnGo f₁ l = dnGo f₂ l := by
  intro f₁
  induction f₁ with
  | zero =>
      intro f₂ l h₁ _
      have : l = [] := List.eq_nil_of_length_eq_zero (Nat.le_zero.mp h₁)
      subst this
      cases f₂ <;> rfl
  | succ g ih =>
      intro f₂ l h₁ h₂
      cases l with
      | nil => cases f₂ <;> rfl
      | cons n ns =>
          cases f₂ with
          | zero => simp at h₂
          | succ g₂ =>
              simp only [dnGo]
              congr 1
              apply ih
              · calc (ns.filter (fun m => !(m == n))).length
                    ≤ ns.length := List.length_filter_le _ _
                  _ ≤ g := by simpa using h₁
              · calc (ns.filter (fun m => !(m == n))).length
                    ≤ ns.length := List.length_filter_le _ _
                  _ ≤ g₂ := by simpa using h₂

theorem dedupNames_nil : dedupNames [] = [] := rfl

theorem dedupNames_cons (n : String) (ns : List String) :
    dedupNames (n :: ns) = n :: dedupNames (ns.filter (fun m => !(m == n))) := by
  show dnGo (n :: ns).length (n :: ns) = _
  simp only [List.length_cons, dnGo]
  congr 1
  exact dnGo_fuel ns.length _ _ (List.length_filter_le _ _) le_rfl

theorem mem_dnGo : ∀ (f : Nat) (l : List String) (x : String),
    l.length ≤ f → (x ∈ dnGo f l ↔ x ∈ l) := by
  intro f
  induction f with
  | zero =>
      intro l x h₁
      have : l = [] := List.eq_nil_of_length_eq_zero (Nat.le_zero.mp h₁)
      subst this
      rfl
  | succ g ih =>
      intro l x h₁
      cases l with
      | nil => rfl
      | cons n ns =>
          simp only [dnGo, List.mem_cons]
          rw [ih (ns.filter (fun m => !(m == n))) x
            (le_trans (List.length_filter_le _ _) (by simpa using h₁))]
          by_cases hx : x = n
          · simp [hx]
          · simp [hx, List.mem_filter]

theorem mem_dedupNames (l : List String) (x : String) :
    x ∈ dedupNames l ↔ x ∈ l :=
  mem_dnGo l.length l x le_rfl

theorem nodup_dnGo : ∀ (f : Nat) (l : List String),
    l.length ≤ f → (dnGo f l).Nodup := by
  intro f
  induction f with
  | zero =>
      intro l h₁
      have : l = [] := List.eq_nil_of_length_eq_zero (Nat.le_zero.mp h₁)
      subst this
      exact List.nodup_nil
  | succ g ih =>
      intro l h₁
      cases l with
      | nil => exact List.nodup_nil
      | cons n ns =>
          simp only [dnGo, List.nodup_cons]
          have hlen : (ns.filter (fun m => !(m == n))).length ≤ g :=
            le_trans (List.length_filter_le _ _) (by simpa using h₁)
          refine ⟨?_, ih _ hlen⟩
          intro hmem
          rw [mem_dnGo g _ n hlen] at hmem
          simp [List.mem_filter] at hmem

theorem nodup_dedupNames (l : List String) : (dedupNames l).Nodup :=
  nodup_dnGo l.length l le_rfl

/-! ### Claim 9 — duplicate-section collapsing -/

theorem enumFrom_filter_head (ro : String) :
    ∀ (k : Nat) (l : List Sec),
      (((List.enumFrom k l).filter (fun p => p.2.role == ro)).head?).map (·.2)
        = l.find? (fun s => s.role == ro) := by
  intro k l
  induction l generalizing k with
  | nil => rfl
  | cons s rest ih =>
      simp only [List.enumFrom_cons, List.filter_cons, List.find?_cons]
      by_cases h : s.role == ro
      · simp [h]
      · simp only [h, Bool.false_eq_true, if_false]
        exact ih (k + 1)

theorem enumFrom_filter_length (pred : Sec → Bool) :
    ∀ (k : Nat) (l : List Sec),
      ((List.enumFrom k l).filter (fun p => pred p.2)).length
        = (l.filter pred).length := by
  intro k l
  induction l generalizing k with
  | nil => rfl
  | cons s rest ih =>
      simp only [List.enumFrom_cons, List.filter_cons]
      by_cases h : pred s
      · simp [h, ih (k + 1)]
      · simp [h, ih (k + 1)]

/-- The `filterMap` producing `duplicates` in the embedding. -/
theorem dup_filterMap_map_dtype (sections : List Sec) :
    ∀ L : List String,
      ((L.map (fun ro => (ro, (List.enum sections).filter
          (fun p => p.2.role == ro)))).filterMap (fun g =>
        if 2 ≤ g.2.length then
          (g.2.head?).map (fun h =>
            ({ dtype := g.1, count := g.2.length, kept_index := h.1,
               removed_indices := g.2.tail.map (·.1) } : DupInfo))
        else none)).map DupInfo.dtype
      = L.filter (fun ro =>
          2 ≤ (sections.filter (fun s => s.role == ro)).length) := by
  intro L
  induction L with
  | nil => rfl
  | cons ro L ih =>
      simp only [List.map_cons, List.filterMap_cons, List.filter_cons]
      have hlen : ((List.enum sections).filter (fun p => p.2.role == ro)).length
          = (sections.filter (fun s => s.role == ro)).length :=
        enumFrom_filter_length (fun s => s.role == ro) 0 sections
      by_cases h2 : 2 ≤ (sections.filter (fun s => s.role == ro)).length
      · have h2' : 2 ≤ ((List.enum sections).filter (fun p => p.2.role == ro)).length := by
          rw [hlen]; exact h2
        cases hg : (List.enum sections).filter (fun p => p.2.role == ro) with
        | nil => rw [hg] at h2'; simp at h2'
        | cons x xs =>
            rw [hg] at h2'
            simp only [if_pos h2', List.head?_cons, Option.map_some', List.map_cons]
            rw [ih]
            simp [h2]
      · have h2' : ¬ 2 ≤ ((List.enum sections).filter (fun p => p.2.role == ro)).length := by
          rw [hlen]; exact h2
        simp only [if_neg h2', List.map_nil]
        rw [ih]
        simp [h2]

/-- C9: collapsing keeps, for every role, exactly the first section of that
role by detection order (so a role occurring once is kept unchanged and two
`runes` sections collapse to the earlier one); the `duplicates` list has one
entry per role occurring at least twice, in first-seen role order, and each
entry records the total occurrence count of its role, of which the removed
indices are all but the kept one. -/
theorem claim9_duplicate_collapse (sections : List Sec) :
    (detect_duplicate_sections sections).unique_sections
      = (dedupNames (sections.map Sec.role)).filterMap
          (fun ro => sections.find? (fun s => s.role == ro))
    ∧ (detect_duplicate_sections sections).duplicates.map DupInfo.dtype
      = (dedupNames (sections.map Sec.role)).filter
          (fun ro => 2 ≤ (sections.filter (fun s => s.role == ro)).length)
    ∧ ((detect_duplicate_sections sections).duplicates.map DupInfo.dtype).Nodup
    ∧ ∀ d ∈ (detect_duplicate_sections sections).duplicates,
        d.count = (sections.filter (fun s => s.role == d.dtype)).length
        ∧ d.removed_indices.length + 1 = d.count := by
  have hdup : (detect_duplicate_sections sections).duplicates.map DupInfo.dtype
      = (dedupNames (sections.map Sec.role)).filter
          (fun ro => 2 ≤ (sections.filter (fun s => s.role == ro)).length) := by
    simp only [detect_duplicate_sections, byType]
    exact dup_filterMap_map_dtype sections (dedupNames (sections.map Sec.role))
  refine ⟨?_, hdup, ?_, ?_⟩
  · simp only [detect_duplicate_sections, byType, List.filterMap_map]
    congr 1
    funext ro
    exact enumFrom_filter_head ro 0 sections
  · rw [hdup]
    exact (nodup_dedupNames _).filter _
  · intro d hd
    simp only [detect_duplicate_sections, byType, List.filterMap_map,
      List.mem_filterMap] at hd
    obtain ⟨ro, _, hro⟩ := hd
    simp only [Function.comp] at hro
    by_cases h2 : 2 ≤ ((List.enum sections).filter (fun p => p.2.role == ro)).length
    · rw [if_pos h2] at hro
      cases hg : (List.enum sections).filter (fun p => p.2.role == ro) with
      | nil => rw [hg] at h2; simp at h2
      | cons x xs =>
          rw [hg] at hro h2
          simp only [List.head?_cons, Option.map_some', Option.some.injEq] at hro
          subst hro
          have hlen : ((List.enum sections).filter (fun p => p.2.role == ro)).length
              = (sections.filter (fun s => s.role == ro)).length :=
            enumFrom_filter_length (fun s => s.role == ro) 0 sections
          rw [hg] at hlen
          constructor
          · simpa using hlen
          · simp
    · rw [if_neg h2] at hro
      cases hro

/-! ### Facts about `deduplicate_cards` -/

theorem bumpQty_map_name (n : String) (q : Nat) :
    ∀ acc : List PCard, (bumpQty n q acc).map (·.name_cn) = acc.map (·.name_cn) := by
  intro acc
  induction acc with
  | nil => rfl
  | cons c cs ih =>
      by_cases h : c.name_cn = n
      · simp [bumpQty, h]
      · simp [bumpQty, h, ih]

theorem lookupQty_self :
    ∀ acc : List PCard, (acc.map (·.name_cn)).Nodup →
      ∀ c ∈ acc, lookupQty acc c.name_cn = c.quantity := by
  intro acc
  induction acc with
  | nil => intro _ c hc; cases hc
  | cons d ds ih =>
      intro hnd c hc
      rw [List.mem_cons] at hc
      rcases hc with rfl | hc
      · simp [lookupQty]
      · have hne : d.name_cn ≠ c.name_cn := by
          intro hEq
          rw [List.map_cons, List.nodup_cons] at hnd
          exact hnd.1 (hEq ▸ List.mem_map_of_mem (·.name_cn) hc)
        rw [List.map_cons, List.nodup_cons] at hnd
        simp only [lookupQty, if_neg hne]
        exact ih hnd.2 c hc

theorem lookupQty_bump_self (n : String) (q : Nat) :
    ∀ acc : List PCard, n ∈ acc.map (·.name_cn) →
      lookupQty (bumpQty n q acc) n = max (lookupQty acc n) q := by
  intro acc
  induction acc with
  | nil => intro h; cases h
  | cons c cs ih =>
      intro hmem
      by_cases h : c.name_cn = n
      · simp [bumpQty, h, lookupQty]
      · simp only [bumpQty, if_neg h, lookupQty]
        apply ih
        rw [List.map_cons] at hmem
        rcases List.mem_cons.mp hmem with hEq | hmem'
        · exact absurd hEq.symm h
        · exact hmem'

theorem lookupQty_bump_other (n n' : String) (q : Nat) (hne : n' ≠ n) :
    ∀ acc : List PCard, lookupQty (bumpQty n q acc) n' = lookupQty acc n' := by
  intro acc
  induction acc with
  | nil => rfl
  | cons c cs ih =>
      by_cases h : c.name_cn = n
      · have hne' : ¬ n = n' := fun hc => hne hc.symm
        simp [bumpQty, h, lookupQty, hne', ih]
      · simp only [bumpQty, if_neg h, lookupQty, ih]

theorem lookupQty_append (c : PCard) (n : String) :
    ∀ acc : List PCard, lookupQty (acc ++ [c]) n =
      if n ∈ acc.map (·.name_cn) then lookupQty acc n
      else if c.name_cn = n then c.quantity else 0 := by
  intro acc
  induction acc with
  | nil => simp [lookupQty]
  | cons d ds ih =>
      rw [List.cons_append, List.map_cons]
      by_cases h : d.name_cn = n
      · rw [if_pos (List.mem_cons.mpr (Or.inl h.symm))]
        simp [lookupQty, h]
      · have hstep : lookupQty (d :: (ds ++ [c])) n = lookupQty (ds ++ [c]) n := by
          simp [lookupQty, h]
        rw [hstep, ih]
        by_cases hm : n ∈ ds.map (·.name_cn)
        · rw [if_pos hm, if_pos (List.mem_cons.mpr (Or.inr hm))]
          simp [lookupQty, h]
        · have hnotin : n ∉ d.name_cn :: ds.map (·.name_cn) := by
            intro hc
            rcases List.mem_cons.mp hc with hEq | hm'
            · exact h hEq.symm
            · exact hm hm'
          rw [if_neg hm, if_neg hnotin]

theorem maxQty_cons (c : PCard) (cs : List PCard) (n : String) :
    maxQty n (c :: cs) =
      if c.name_cn = n then max c.quantity (maxQty n cs) else maxQty n cs := rfl

/-- Names appearing in the accumulator never disappear and entries keep
nonempty names. -/
theorem dedupAux_name_ne :
    ∀ (l acc : List PCard), (∀ c ∈ acc, c.name_cn ≠ "") →
      ∀ c ∈ dedupAux acc l, c.name_cn ≠ "" := by
  intro l
  induction l with
  | nil => intro acc hacc c hc; exact hacc c (by simpa [dedupAux] using hc)
  | cons c₀ cs ih =>
      intro acc hacc c hc
      by_cases h0 : c₀.name_cn = ""
      · rw [show dedupAux acc (c₀ :: cs) = dedupAux acc cs by
          simp only [dedupAux]; rw [if_pos h0]] at hc
        exact ih acc hacc c hc
      · by_cases h1 : (acc.map (·.name_cn)).contains c₀.name_cn
        · rw [show dedupAux acc (c₀ :: cs)
              = dedupAux (bumpQty c₀.name_cn c₀.quantity acc) cs by
            simp only [dedupAux]; rw [if_neg h0, if_pos h1]] at hc
          refine ih _ ?_ c hc
          intro d hd
          have : d.name_cn ∈ (bumpQty c₀.name_cn c₀.quantity acc).map (·.name_cn) :=
            List.mem_map_of_mem _ hd
          rw [bumpQty_map_name] at this
          obtain ⟨d', hd', hdd⟩ := List.mem_map.mp this
          exact hdd ▸ hacc d' hd'
        · rw [show dedupAux acc (c₀ :: cs) = dedupAux (acc ++ [c₀]) cs by
            simp only [dedupAux]; rw [if_neg h0, if_neg h1]] at hc
          refine ih _ ?_ c hc
          intro d hd
          rcases List.mem_append.mp hd with hd | hd
          · exact hacc d hd
          · rw [List.mem_singleton.mp hd]; exact h0

/-- Quantity characterization of the dedup loop: every entry of the result
carries the maximum of what the accumulator stored for its name and the
maximal quantity its name reaches in the remaining input. -/
theorem dedupAux_qty :
    ∀ (l acc : List PCard),
      (acc.map (·.name_cn)).Nodup →
      (∀ c ∈ acc, c.name_cn ≠ "") →
      ∀ c ∈ dedupAux acc l,
        c.quantity = if c.name_cn ∈ acc.map (·.name_cn)
          then max (lookupQty acc c.name_cn) (maxQty c.name_cn l)
          else maxQty c.name_cn l := by
  intro l
  induction l with
  | nil =>
      intro acc hnd hne c hc
      simp only [dedupAux] at hc
      have hmem : c.name_cn ∈ acc.map (·.name_cn) := List.mem_map_of_mem _ hc
      rw [if_pos hmem, lookupQty_self acc hnd c hc]
      simp [maxQty]
  | cons c₀ cs ih =>
      intro acc hnd hne c hc
      by_cases h0 : c₀.name_cn = ""
      · rw [show dedupAux acc (c₀ :: cs) = dedupAux acc cs by
          simp only [dedupAux]; rw [if_pos h0]] at hc
        have hcne : c.name_cn ≠ "" := dedupAux_name_ne cs acc hne c hc
        have hne0 : c₀.name_cn ≠ c.name_cn := by
          rw [h0]; exact fun hEq => hcne hEq.symm
        rw [show maxQty c.name_cn (c₀ :: cs) = maxQty c.name_cn cs by
          rw [maxQty_cons, if_neg hne0]]
        exact ih acc hnd hne c hc
      · by_cases h1 : (acc.map (·.name_cn)).contains c₀.name_cn
        · rw [show dedupAux acc (c₀ :: cs)
              = dedupAux (bumpQty c₀.name_cn c₀.quantity acc) cs by
            simp only [dedupAux]; rw [if_neg h0, if_pos h1]] at hc
          have hmap := bumpQty_map_name c₀.name_cn c₀.quantity acc
          have hnd' : ((bumpQty c₀.name_cn c₀.quantity acc).map (·.name_cn)).Nodup := by
            rw [hmap]; exact hnd
          have hne' : ∀ d ∈ bumpQty c₀.name_cn c₀.quantity acc, d.name_cn ≠ "" := by
            intro d hd
            have hdm : d.name_cn ∈ (bumpQty c₀.name_cn c₀.quantity acc).map (·.name_cn) :=
              List.mem_map_of_mem _ hd
            rw [hmap] at hdm
            obtain ⟨d', hd', hdd⟩ := List.mem_map.mp hdm
            exact hdd ▸ hne d' hd'
          have hthis := ih _ hnd' hne' c hc
          rw [hmap] at hthis
          have h1mem : c₀.name_cn ∈ acc.map (·.name_cn) := by simpa using h1
          by_cases hcn : c.name_cn = c₀.name_cn
          · have hcmem : c.name_cn ∈ acc.map (·.name_cn) := by
              rw [hcn]; exact h1mem
            rw [if_pos hcmem] at hthis
            have hlk : lookupQty (bumpQty c₀.name_cn c₀.quantity acc) c.name_cn
                = max (lookupQty acc c.name_cn) c₀.quantity := by
              rw [hcn]
              exact lookupQty_bump_self _ _ _ h1mem
            rw [hlk] at hthis
            have hmx : maxQty c.name_cn (c₀ :: cs)
                = max c₀.quantity (maxQty c.name_cn cs) := by
              rw [maxQty_cons, if_pos hcn.symm]
            rw [if_pos hcmem, hmx]
            omega
          · rw [lookupQty_bump_other c₀.name_cn c.name_cn c₀.quantity hcn acc]
              at hthis
            have hmx : maxQty c.name_cn (c₀ :: cs) = maxQty c.name_cn cs := by
              rw [maxQty_cons,
                if_neg (fun hEq : c₀.name_cn = c.name_cn => hcn hEq.symm)]
            rw [hmx]
            exact hthis
        · rw [show dedupAux acc (c₀ :: cs) = dedupAux (acc ++ [c₀]) cs by
            simp only [dedupAux]; rw [if_neg h0, if_neg h1]] at hc
          have h1mem : c₀.name_cn ∉ acc.map (·.name_cn) := by simpa using h1
          have hmap : (acc ++ [c₀]).map (·.name_cn)
              = acc.map (·.name_cn) ++ [c₀.name_cn] := by simp
          have hnd' : ((acc ++ [c₀]).map (·.name_cn)).Nodup := by
            rw [hmap, List.nodup_append]
            refine ⟨hnd, List.nodup_singleton _, ?_⟩
            intro a ha hb
            rw [List.mem_singleton] at hb
            exact h1mem (hb ▸ ha)
          have hne' : ∀ d ∈ acc ++ [c₀], d.name_cn ≠ "" := by
            intro d hd
            rcases List.mem_append.mp hd with hd | hd
            · exact hne d hd
            · rw [List.mem_singleton.mp hd]; exact h0
          have hthis := ih _ hnd' hne' c hc
          rw [hmap] at hthis
          by_cases hcn : c.name_cn = c₀.name_cn
          · have hmem' : c.name_cn ∈ acc.map (·.name_cn) ++ [c₀.name_cn] := by
              rw [hcn]
              exact List.mem_append.mpr (Or.inr (List.mem_singleton_self _))
            have hcnot : c.name_cn ∉ acc.map (·.name_cn) := by
              rw [hcn]; exact h1mem
            rw [if_pos hmem'] at hthis
            have hlk : lookupQty (acc ++ [c₀]) c.name_cn = c₀.quantity := by
              rw [lookupQty_append, if_neg hcnot, if_pos hcn.symm]
            rw [hlk] at hthis
            have hmx : maxQty c.name_cn (c₀ :: cs)
                = max c₀.quantity (maxQty c.name_cn cs) := by
              rw [maxQty_cons, if_pos hcn.symm]
            rw [if_neg hcnot, hmx]
            exact hthis
          · have hmem_iff : (c.name_cn ∈ acc.map (·.name_cn) ++ [c₀.name_cn])
                ↔ c.name_cn ∈ acc.map (·.name_cn) := by
              rw [List.mem_append, List.mem_singleton]
              constructor
              · rintro (h | h)
                · exact h
                · exact absurd h hcn
              · exact Or.inl
            have hmx : maxQty c.name_cn (c₀ :: cs) = maxQty c.name_cn cs := by
              rw [maxQty_cons,
                if_neg (fun hEq : c₀.name_cn = c.name_cn => hcn hEq.symm)]
            rw [hmx]
            by_cases hmm : c.name_cn ∈ acc.map (·.name_cn)
            · rw [if_pos (hmem_iff.mpr hmm), lookupQty_append, if_pos hmm] at hthis
              rw [if_pos hmm]
              exact hthis
            · rw [if_neg (fun hx => hmm (hmem_iff.mp hx))] at hthis
              rw [if_neg hmm]
              exact hthis

/-- Name characterization of the dedup loop: output names are the
accumulator's names followed by the first occurrence of each new, nonempty,
not-yet-seen name of the input. -/
theorem dedupAux_map_name :
    ∀ (l acc : List PCard),
      (dedupAux acc l).map (·.name_cn)
        = acc.map (·.name_cn)
          ++ dedupNames ((l.map (·.name_cn)).filter
              (fun n => !(n == "" || (acc.map (·.name_cn)).contains n))) := by
  intro l
  induction l with
  | nil =>
      intro acc
      simp [dedupAux, dedupNames, dnGo]
  | cons c₀ cs ih =>
      intro acc
      rw [List.map_cons, List.filter_cons]
      by_cases h0 : c₀.name_cn = ""
      · rw [show dedupAux acc (c₀ :: cs) = dedupAux acc cs by
          simp only [dedupAux]; rw [if_pos h0]]
        rw [show (!(c₀.name_cn == ""
            || (acc.map (·.name_cn)).contains c₀.name_cn)) = false by
          simp [h0]]
        simp only [Bool.false_eq_true, if_false]
        exact ih acc
      · by_cases h1 : (acc.map (·.name_cn)).contains c₀.name_cn
        · rw [show dedupAux acc (c₀ :: cs)
              = dedupAux (bumpQty c₀.name_cn c₀.quantity acc) cs by
            simp only [dedupAux]; rw [if_neg h0, if_pos h1]]
          rw [ih (bumpQty c₀.name_cn c₀.quantity acc), bumpQty_map_name]
          rw [show (!(c₀.name_cn == ""
              || (acc.map (·.name_cn)).contains c₀.name_cn)) = false by
            rw [h1, Bool.or_true, Bool.not_true]]
          simp only [Bool.false_eq_true, if_false]
        · have h1' : (acc.map (·.name_cn)).contains c₀.name_cn = false := by
            cases hb : (acc.map (·.name_cn)).contains c₀.name_cn
            · rfl
            · exact absurd hb h1
          have h0' : (c₀.name_cn == "") = false := by
            simp [h0]
          rw [show dedupAux acc (c₀ :: cs) = dedupAux (acc ++ [c₀]) cs by
            simp only [dedupAux]; rw [if_neg h0, if_neg h1]]
          rw [ih (acc ++ [c₀])]
          have hmapp : (acc ++ [c₀]).map (·.name_cn)
              = acc.map (·.name_cn) ++ [c₀.name_cn] := by simp
          rw [hmapp]
          rw [show (!(c₀.name_cn == ""
              || (acc.map (·.name_cn)).contains c₀.name_cn)) = true by
            rw [h0', h1', Bool.or_false, Bool.not_false]]
          simp only [if_true]
          rw [dedupNames_cons, List.filter_filter, List.append_assoc,
            List.singleton_append]
          have hpt : ∀ n ∈ cs.map (·.name_cn),
              (!(n == "" || (acc.map (·.name_cn) ++ [c₀.name_cn]).contains n))
                = (!(n == c₀.name_cn)
                    && !(n == "" || (acc.map (·.name_cn)).contains n)) := by
            intro n _
            by_cases e1 : n = "" <;> by_cases e2 : n = c₀.name_cn <;>
              by_cases e3 : n ∈ acc.map (·.name_cn) <;> simp [e1, e2, e3]
          rw [List.filter_congr hpt]

/-- When every input card is new to the accumulator (nonempty, unseen,
pairwise distinct names), the dedup loop just appends. -/
theorem dedupAux_all_new :
    ∀ (m acc : List PCard),
      (∀ c ∈ m, c.name_cn ≠ "") →
      ((m.map (·.name_cn)).Nodup) →
      (∀ c ∈ m, c.name_cn ∉ acc.map (·.name_cn)) →
      dedupAux acc m = acc ++ m := by
  intro m
  induction m with
  | nil => intro acc _ _ _; simp [dedupAux]
  | cons c cs ih =>
      intro acc hne hnd hnew
      have h0 : c.name_cn ≠ "" := hne c (List.mem_cons_self _ _)
      have h1 : ¬ (acc.map (·.name_cn)).contains c.name_cn = true := by
        intro hcont
        exact hnew c (List.mem_cons_self _ _) (by simpa using hcont)
      rw [show dedupAux acc (c :: cs) = dedupAux (acc ++ [c]) cs by
        simp only [dedupAux]; rw [if_neg h0, if_neg h1]]
      rw [List.map_cons, List.nodup_cons] at hnd
      rw [ih (acc ++ [c]) (fun d hd => hne d (List.mem_cons_of_mem _ hd)) hnd.2
        ?_, List.append_assoc, List.singleton_append]
      intro d hd hmem
      rw [show (acc ++ [c]).map (·.name_cn)
          = acc.map (·.name_cn) ++ [c.name_cn] by simp] at hmem
      rcases List.mem_append.mp hmem with hmem | hmem
      · exact hnew d (List.mem_cons_of_mem _ hd) hmem
      · rw [List.mem_singleton] at hmem
        exact hnd.1 (hmem ▸ List.mem_map_of_mem (·.name_cn) hd)

/-! ### Claim 5 — the dedup contract and idempotence -/

/-- C5: on a list of named cards (nonempty names), `deduplicate_cards`
returns one entry per distinct name in first-seen order, each carrying the
maximum quantity its name reaches in the input; and on every card list,
deduplicating twice equals deduplicating once. -/
theorem claim5_dedup_contract (l : List PCard) :
    ((∀ c ∈ l, c.name_cn ≠ "") →
      ((deduplicate_cards l).map (·.name_cn) = dedupNames (l.map (·.name_cn))
        ∧ ∀ c ∈ deduplicate_cards l, c.quantity = maxQty c.name_cn l))
    ∧ deduplicate_cards (deduplicate_cards l) = deduplicate_cards l := by
  have hnames := dedupAux_map_name l []
  rw [show (([] : List PCard).map (·.name_cn)) = [] from rfl,
    List.nil_append] at hnames
  rw [List.filter_congr (fun n _ => show (!(n == ""
      || (([] : List String)).contains n)) = !(n == "") by simp)] at hnames
  have hnamesD : (deduplicate_cards l).map (·.name_cn)
      = dedupNames ((l.map (·.name_cn)).filter (fun n => !(n == ""))) := hnames
  have hneD : ∀ c ∈ deduplicate_cards l, c.name_cn ≠ "" := by
    intro c hc hEq
    have hm : c.name_cn ∈ (deduplicate_cards l).map (·.name_cn) :=
      List.mem_map_of_mem _ hc
    rw [hnamesD, mem_dedupNames, List.mem_filter] at hm
    simp [hEq] at hm
  constructor
  · intro h
    constructor
    · rw [hnamesD, List.filter_eq_self.mpr]
      intro n hn
      obtain ⟨c, hc, rfl⟩ := List.mem_map.mp hn
      simp [h c hc]
    · intro c hc
      have := dedupAux_qty l [] List.nodup_nil (by intro d hd; cases hd) c hc
      simpa using this
  · show dedupAux [] (deduplicate_cards l) = deduplicate_cards l
    rw [dedupAux_all_new (deduplicate_cards l) [] hneD ?_ ?_]
    · rfl
    · rw [hnamesD]
      exact nodup_dedupNames _
    · intro c _ hmem
      cases hmem

/-! ### Quantity-one and confidence preservation through dedup -/

theorem bumpQty_one (n : String) :
    ∀ acc : List PCard, (∀ c ∈ acc, c.quantity = 1) →
      ∀ c ∈ bumpQty n 1 acc, c.quantity = 1 := by
  intro acc
  induction acc with
  | nil => intro _ c hc; cases hc
  | cons d ds ih =>
      intro hacc c hc
      by_cases h : d.name_cn = n
      · rw [show bumpQty n 1 (d :: ds)
            = { d with quantity := max d.quantity 1 } :: ds by
          simp [bumpQty, h]] at hc
        rcases List.mem_cons.mp hc with rfl | hc
        · simp [hacc d (List.mem_cons_self _ _)]
        · exact hacc c (List.mem_cons_of_mem _ hc)
      · rw [show bumpQty n 1 (d :: ds) = d :: bumpQty n 1 ds by
          simp [bumpQty, h]] at hc
        rcases List.mem_cons.mp hc with rfl | hc
        · exact hacc c (List.mem_cons_self _ _)
        · exact ih (fun e he => hacc e (List.mem_cons_of_mem _ he)) c hc

theorem dedupAux_one :
    ∀ (l acc : List PCard), (∀ c ∈ acc, c.quantity = 1) →
      (∀ c ∈ l, c.quantity = 1) → ∀ c ∈ dedupAux acc l, c.quantity = 1 := by
  intro l
  induction l with
  | nil => intro acc hacc _ c hc; exact hacc c (by simpa [dedupAux] using hc)
  | cons c₀ cs ih =>
      intro acc hacc hl c hc
      have hl' : ∀ d ∈ cs, d.quantity = 1 :=
        fun d hd => hl d (List.mem_cons_of_mem _ hd)
      by_cases h0 : c₀.name_cn = ""
      · rw [show dedupAux acc (c₀ :: cs) = dedupAux acc cs by
          simp only [dedupAux]; rw [if_pos h0]] at hc
        exact ih acc hacc hl' c hc
      · by_cases h1 : (acc.map (·.name_cn)).contains c₀.name_cn
        · rw [show dedupAux acc (c₀ :: cs)
              = dedupAux (bumpQty c₀.name_cn c₀.quantity acc) cs by
            simp only [dedupAux]; rw [if_neg h0, if_pos h1]] at hc
          have hq0 : c₀.quantity = 1 := hl c₀ (List.mem_cons_self _ _)
          rw [hq0] at hc
          exact ih _ (bumpQty_one c₀.name_cn acc hacc) hl' c hc
        · rw [show dedupAux acc (c₀ :: cs) = dedupAux (acc ++ [c₀]) cs by
            simp only [dedupAux]; rw [if_neg h0, if_neg h1]] at hc
          refine ih _ ?_ hl' c hc
          intro d hd
          rcases List.mem_append.mp hd with hd | hd
          · exact hacc d hd
          · rw [List.mem_singleton.mp hd]
            exact hl c₀ (List.mem_cons_self _ _)

theorem dedup_one (l : List PCard) (h : ∀ c ∈ l, c.quantity = 1) :
    ∀ c ∈ deduplicate_cards l, c.quantity = 1 :=
  dedupAux_one l [] (by intro c hc; cases hc) h

theorem bumpQty_conf (n : String) (q : Nat) :
    ∀ acc : List PCard, (∀ c ∈ acc, c.confidence = 0) →
      ∀ c ∈ bumpQty n q acc, c.confidence = 0 := by
  intro acc
  induction acc with
  | nil => intro _ c hc; cases hc
  | cons d ds ih =>
      intro hacc c hc
      by_cases h : d.name_cn = n
      · rw [show bumpQty n q (d :: ds)
            = { d with quantity := max d.quantity q } :: ds by
          simp [bumpQty, h]] at hc
        rcases List.mem_cons.mp hc with rfl | hc
        · simpa using hacc d (List.mem_cons_self _ _)
        · exact hacc c (List.mem_cons_of_mem _ hc)
      · rw [show bumpQty n q (d :: ds) = d :: bumpQty n q ds by
          simp [bumpQty, h]] at hc
        rcases List.mem_cons.mp hc with rfl | hc
        · exact hacc c (List.mem_cons_self _ _)
        · exact ih (fun e he => hacc e (List.mem_cons_of_mem _ he)) c hc

theorem dedupAux_conf :
    ∀ (l acc : List PCard), (∀ c ∈ acc, c.confidence = 0) →
      (∀ c ∈ l, c.confidence = 0) → ∀ c ∈ dedupAux acc l, c.confidence = 0 := by
  intro l
  induction l with
  | nil => intro acc hacc _ c hc; exact hacc c (by simpa [dedupAux] using hc)
  | cons c₀ cs ih =>
      intro acc hacc hl c hc
      have hl' : ∀ d ∈ cs, d.confidence = 0 :=
        fun d hd => hl d (List.mem_cons_of_mem _ hd)
      by_cases h0 : c₀.name_cn = ""
      · rw [show dedupAux acc (c₀ :: cs) = dedupAux acc cs by
          simp only [dedupAux]; rw [if_pos h0]] at hc
        exact ih acc hacc hl' c hc
      · by_cases h1 : (acc.map (·.name_cn)).contains c₀.name_cn
        · rw [show dedupAux acc (c₀ :: cs)
              = dedupAux (bumpQty c₀.name_cn c₀.quantity acc) cs by
            simp only [dedupAux]; rw [if_neg h0, if_pos h1]] at hc
          exact ih _ (bumpQty_conf c₀.name_cn c₀.quantity acc hacc) hl' c hc
        · rw [show dedupAux acc (c₀ :: cs) = dedupAux (acc ++ [c₀]) cs by
            simp only [dedupAux]; rw [if_neg h0, if_neg h1]] at hc
          refine ih _ ?_ hl' c hc
          intro d hd
          rcases List.mem_append.mp hd with hd | hd
          · exact hacc d hd
          · rw [List.mem_singleton.mp hd]
            exact hl c₀ (List.mem_cons_self _ _)

theorem dedup_conf (l : List PCard) (h : ∀ c ∈ l, c.confidence = 0) :
    ∀ c ∈ deduplicate_cards l, c.confidence = 0 :=
  dedupAux_conf l [] (by intro c hc; cases hc) h

/-! ### Claim 7 — legend and battlefield invariants of consolidation -/

theorem consolidate_legend (groups : List (String × List PCard)) :
    (consolidate groups).legend
      = (legendSplit ((groups.filter (fun g => g.1 = "legend_main")).map (·.2))).1 :=
  rfl

theorem consolidate_main_deck (groups : List (String × List PCard)) :
    (consolidate groups).main_deck
      = deduplicate_cards
          ((legendSplit ((groups.filter (fun g => g.1 = "legend_main")).map (·.2))).2
            ++ ((groups.filter (fun g =>
                !(["legend_main", "battlefields", "runes", "side_deck"].contains
                  g.1))).map (·.2)).flatten) :=
  rfl

theorem consolidate_battlefields (groups : List (String × List PCard)) :
    (consolidate groups).battlefields
      = (deduplicate_cards
          (((groups.filter (fun g => g.1 = "battlefields")).map (·.2)).flatten)).take 3 :=
  rfl

theorem consolidate_runes (groups : List (String × List PCard)) :
    (consolidate groups).runes
      = deduplicate_cards
          ((((groups.filter (fun g => g.1 = "runes")).map (·.2)).flatten)
            ++ ((((groups.filter (fun g => g.1 = "side_deck")).map (·.2)).map
              (fun cs => cs.filter (fun c => containsStr c.name_cn "符文"))).flatten)) :=
  rfl

theorem consolidate_side_deck (groups : List (String × List PCard)) :
    (consolidate groups).side_deck
      = deduplicate_cards
          ((((groups.filter (fun g => g.1 = "side_deck")).map (·.2)).map
            (fun cs => cs.filter (fun c => !(containsStr c.name_cn "符文")))).flatten) :=
  rfl

theorem legendSplit_fst_cases (lgs : List (List PCard)) :
    (legendSplit lgs).1 = []
    ∨ ∃ c rest extras, lgs = (c :: rest) :: extras
        ∧ (legendSplit lgs).1 = [{ c with quantity := 1 }] := by
  cases lgs with
  | nil => left; rfl
  | cons primary extras =>
      cases primary with
      | nil => left; rfl
      | cons c rest => right; exact ⟨c, rest, extras, rfl, rfl⟩

theorem legendSplit_snd_sub (lgs : List (List PCard)) :
    ∀ c ∈ (legendSplit lgs).2, ∃ l ∈ lgs, c ∈ l := by
  cases lgs with
  | nil => intro c hc; cases hc
  | cons primary extras =>
      cases primary with
      | nil =>
          intro c hc
          simp only [legendSplit] at hc
          obtain ⟨l, hl, hcl⟩ := List.mem_flatten.mp hc
          exact ⟨l, List.mem_cons_of_mem _ hl, hcl⟩
      | cons c₀ rest =>
          intro c hc
          simp only [legendSplit] at hc
          rcases List.mem_append.mp hc with hc | hc
          · exact ⟨c₀ :: rest, List.mem_cons_self _ _, List.mem_cons_of_mem _ hc⟩
          · obtain ⟨l, hl, hcl⟩ := List.mem_flatten.mp hc
            exact ⟨l, List.mem_cons_of_mem _ hl, hcl⟩

theorem sectionCards_battlefields_qty (boxes : List BoxOcr) :
    ∀ c ∈ sectionCards "battlefields" boxes, c.quantity = 1 := by
  intro c hc
  obtain ⟨b, _, hb⟩ := List.mem_filterMap.mp hc
  cases ht : truthyName (ocr_card_box b.card_name b.qty_text).name_cn with
  | none =>
      rw [ht] at hb
      exact absurd hb (by simp)
  | some n =>
      rw [ht] at hb
      rw [Option.some.injEq] at hb
      rw [← hb]
      simp

theorem sectionCards_conf (stype : String) (boxes : List BoxOcr) :
    ∀ c ∈ sectionCards stype boxes, c.confidence = 0 := by
  intro c hc
  obtain ⟨b, _, hb⟩ := List.mem_filterMap.mp hc
  cases ht : truthyName (ocr_card_box b.card_name b.qty_text).name_cn with
  | none =>
      rw [ht] at hb
      exact absurd hb (by simp)
  | some n =>
      rw [ht] at hb
      rw [Option.some.injEq] at hb
      rw [← hb]
      simp [ocr_card_box]

theorem stage2_battlefields_qty (inp : List SecInput) :
    ∀ g ∈ stage2 inp, g.1 = "battlefields" → ∀ c ∈ g.2, c.quantity = 1 := by
  intro g hg hbt c hc
  obtain ⟨s, _, rfl⟩ := List.mem_map.mp hg
  have : s.stype = "battlefields" := hbt
  rw [this] at hc
  exact sectionCards_battlefields_qty s.boxes c hc

theorem stage2_conf (inp : List SecInput) :
    ∀ g ∈ stage2 inp, ∀ c ∈ g.2, c.confidence = 0 := by
  intro g hg c hc
  obtain ⟨s, _, rfl⟩ := List.mem_map.mp hg
  exact sectionCards_conf s.stype s.boxes c hc

/-- C7: after consolidation the legend list has at most one entry and any
entry has quantity 1; the battlefields list has at most three entries and
every entry has quantity 1. -/
theorem claim7_legend_battlefields (inp : List SecInput) :
    (consolidate (stage2 inp)).legend.length ≤ 1
    ∧ (∀ c ∈ (consolidate (stage2 inp)).legend, c.quantity = 1)
    ∧ (consolidate (stage2 inp)).battlefields.length ≤ 3
    ∧ ∀ c ∈ (consolidate (stage2 inp)).battlefields, c.quantity = 1 := by
  have hleg := legendSplit_fst_cases
    (((stage2 inp).filter (fun g => g.1 = "legend_main")).map (·.2))
  rw [← consolidate_legend] at hleg
  refine ⟨?_, ?_, ?_, ?_⟩
  · rcases hleg with h | ⟨c, rest, extras, _, h⟩ <;> simp [h]
  · intro c hc
    rcases hleg with h | ⟨c₀, rest, extras, _, h⟩
    · rw [h] at hc; cases hc
    · rw [h, List.mem_singleton] at hc
      rw [hc]
  · rw [consolidate_battlefields, List.length_take]
    omega
  · intro c hc
    rw [consolidate_battlefields] at hc
    have hc' := List.take_subset _ _ hc
    refine dedup_one _ ?_ c hc'
    intro d hd
    obtain ⟨lcs, hlcs, hdl⟩ := List.mem_flatten.mp hd
    obtain ⟨g, hg, rfl⟩ := List.mem_map.mp hlcs
    have hgf := List.mem_filter.mp hg
    have hbt : g.1 = "battlefields" := by simpa using hgf.2
    exact stage2_battlefields_qty inp g hgf.1 hbt d hdl

/-- Witness for C7 on a concrete two-section input. -/
theorem claim7_legend_battlefields_witness :
    (consolidate (stage2 [⟨"legend_main", [⟨some "卡", "x2"⟩]⟩,
        ⟨"battlefields", [⟨some "场", ""⟩]⟩])).legend.length ≤ 1
    ∧ (⟨"卡", 1, 0⟩ : PCard).quantity = 1
    ∧ (consolidate (stage2 [⟨"legend_main", [⟨some "卡", "x2"⟩]⟩,
        ⟨"battlefields", [⟨some "场", ""⟩]⟩])).battlefields.length ≤ 3
    ∧ (⟨"场", 1, 0⟩ : PCard).quantity = 1 := by
  have h := claim7_legend_battlefields [⟨"legend_main", [⟨some "卡", "x2"⟩]⟩,
    ⟨"battlefields", [⟨some "场", ""⟩]⟩]
  exact ⟨h.1, h.2.1 ⟨"卡", 1, 0⟩ (by decide), h.2.2.1,
    h.2.2.2 ⟨"场", 1, 0⟩ (by decide)⟩

/-- Witness for C5 on a concrete card list with a repeated name. -/
theorem claim5_dedup_contract_witness :
    ((deduplicate_cards [⟨"甲", 2, 0⟩, ⟨"乙", 1, 0⟩, ⟨"甲", 3, 0⟩]).map (·.name_cn)
        = dedupNames (([⟨"甲", 2, 0⟩, ⟨"乙", 1, 0⟩, ⟨"甲", 3, 0⟩] : List PCard).map
            (·.name_cn))
      ∧ ∀ c ∈ deduplicate_cards [⟨"甲", 2, 0⟩, ⟨"乙", 1, 0⟩, ⟨"甲", 3, 0⟩],
          c.quantity = maxQty c.name_cn [⟨"甲", 2, 0⟩, ⟨"乙", 1, 0⟩, ⟨"甲", 3, 0⟩])
    ∧ deduplicate_cards
        (deduplicate_cards [⟨"甲", 2, 0⟩, ⟨"乙", 1, 0⟩, ⟨"甲", 3, 0⟩])
      = deduplicate_cards [⟨"甲", 2, 0⟩, ⟨"乙", 1, 0⟩, ⟨"甲", 3, 0⟩] := by
  have h := claim5_dedup_contract [⟨"甲", 2, 0⟩, ⟨"乙", 1, 0⟩, ⟨"甲", 3, 0⟩]
  exact ⟨h.1 (by decide), h.2⟩

/-! ### Facts about `matchSection` and `match_decklist` -/

/-- Every input card of a section ends up in exactly one of the two output
lists: the lengths add up. -/
theorem matchSection_length :
    ∀ (cards : List PCard) (db : Db) (sec : String) (ms : List MCard)
      (us : List UCard) (db₂ : Db),
      matchSection db sec cards = .ok (ms, us, db₂) →
      ms.length + us.length = cards.length := by
  intro cards
  induction cards with
  | nil =>
      intro db sec ms us db₂ h
      simp only [matchSection, Except.ok.injEq, Prod.mk.injEq] at h
      rw [← h.1, ← h.2.1]
      rfl
  | cons c rest ih =>
      intro db sec ms us db₂ h
      simp only [matchSection] at h
      split at h
      · exact absurd h (by simp)
      · rename_i res db₁ hr
        split at h
        · exact absurd h (by simp)
        · rename_i ms' us' db₂' hrec
          have hlen := ih db₁ sec ms' us' db₂' hrec
          split at h <;>
            (simp only [Except.ok.injEq, Prod.mk.injEq] at h
             rw [← h.1, ← h.2.1]
             simp only [List.length_cons]
             omega)

/-- The matcher forwards `card['confidence']` into `ocr_confidence`
unchanged, so all-zero inputs give all-zero outputs. -/
theorem matchSection_conf :
    ∀ (cards : List PCard) (db : Db) (sec : String) (ms : List MCard)
      (us : List UCard) (db₂ : Db),
      matchSection db sec cards = .ok (ms, us, db₂) →
      (∀ c ∈ cards, c.confidence = 0) →
      ∀ mc ∈ ms, mc.ocr_confidence = 0 := by
  intro cards
  induction cards with
  | nil =>
      intro db sec ms us db₂ h _
      simp only [matchSection, Except.ok.injEq, Prod.mk.injEq] at h
      rw [← h.1]
      intro mc hmc
      cases hmc
  | cons c rest ih =>
      intro db sec ms us db₂ h hconf
      simp only [matchSection] at h
      split at h
      · exact absurd h (by simp)
      · rename_i res db₁ hr
        split at h
        · exact absurd h (by simp)
        · rename_i ms' us' db₂' hrec
          have hrest : ∀ mc ∈ ms', mc.ocr_confidence = 0 :=
            ih db₁ sec ms' us' db₂' hrec
              (fun d hd => hconf d (List.mem_cons_of_mem _ hd))
          split at h
          · rename_i mr
            simp only [Except.ok.injEq, Prod.mk.injEq] at h
            rw [← h.1]
            intro mc hmc
            rcases List.mem_cons.mp hmc with rfl | hmc
            · show c.confidence = 0
              exact hconf c (List.mem_cons_self _ _)
            · exact hrest mc hmc
          · simp only [Except.ok.injEq, Prod.mk.injEq] at h
            rw [← h.1]
            exact hrest

/-- Inversion of a successful `match_decklist`: the five section runs it is
built from, and the shape of its output fields. -/
theorem match_decklist_spec (db : Db) (pd : ParsedDecklist)
    (m : MatchedDecklist) (db' : Db)
    (h : match_decklist db pd = .ok (m, db')) :
    ∃ (db₀ db₁ db₂ db₃ db₄ : Db) (lm mm bm rm sm : List MCard)
      (lu mu bu ru su : List UCard),
      matchSection db₀ "legend" pd.cards.legend = .ok (lm, lu, db₁)
      ∧ matchSection db₁ "main_deck" pd.cards.main_deck = .ok (mm, mu, db₂)
      ∧ matchSection db₂ "battlefields" pd.cards.battlefields = .ok (bm, bu, db₃)
      ∧ matchSection db₃ "runes" pd.cards.runes = .ok (rm, ru, db₄)
      ∧ matchSection db₄ "side_deck" pd.cards.side_deck = .ok (sm, su, db')
      ∧ m.legend = lm ∧ m.main_deck = mm ∧ m.battlefields = bm
      ∧ m.runes = rm ∧ m.side_deck = sm
      ∧ m.unmatched = lu ++ mu ++ bu ++ ru ++ su
      ∧ m.stats.matched_cards
          = lm.length + mm.length + bm.length + rm.length + sm.length
      ∧ m.stats.total_cards = m.stats.matched_cards + m.unmatched.length
      ∧ m.stats.accuracy = (if 0 < m.stats.total_cards then
          (m.stats.matched_cards : ℚ) / (m.stats.total_cards : ℚ) * 100
        else 0) := by
  unfold match_decklist at h
  split at h
  · exact absurd h (by simp)
  · rename_i legend_name_en db₀ heq₀
    split at h
    · exact absurd h (by simp)
    · rename_i lm lu db₁ heq₁
      split at h
      · exact absurd h (by simp)
      · rename_i mm mu db₂ heq₂
        split at h
        · exact absurd h (by simp)
        · rename_i bm bu db₃ heq₃
          split at h
          · exact absurd h (by simp)
          · rename_i rm ru db₄ heq₄
            split at h
            · exact absurd h (by simp)
            · rename_i sm su db₅ heq₅
              simp only [Except.ok.injEq, Prod.mk.injEq] at h
              obtain ⟨hm, hdb⟩ := h
              subst hdb
              subst hm
              exact ⟨db₀, db₁, db₂, db₃, db₄, lm, mm, bm, rm, sm,
                lu, mu, bu, ru, su, heq₁, heq₂, heq₃, heq₄, heq₅,
                rfl, rfl, rfl, rfl, rfl, rfl, rfl, rfl, rfl⟩

/-! ### Claim 1 — accounting invariants of `match_decklist` -/

/-- C1: on every successful `match_decklist` call, matched plus unmatched
equals the reported total, the accuracy is `matched / total * 100` (0 for an
empty total), the matched count is the summed length of the five output
section lists, and the reported total equals the number of input cards, so
every input card is accounted for exactly once. -/
theorem claim1_match_decklist_stats (db : Db) (pd : ParsedDecklist)
    (m : MatchedDecklist) (db' : Db)
    (h : match_decklist db pd = .ok (m, db')) :
    m.stats.matched_cards + m.unmatched.length = m.stats.total_cards
    ∧ m.stats.accuracy = (if m.stats.total_cards = 0 then 0
        else (m.stats.matched_cards : ℚ) / (m.stats.total_cards : ℚ) * 100)
    ∧ m.stats.matched_cards
        = m.legend.length + m.main_deck.length + m.battlefields.length
          + m.runes.length + m.side_deck.length
    ∧ m.stats.total_cards
        = pd.cards.legend.length + pd.cards.main_deck.length
          + pd.cards.battlefields.length + pd.cards.runes.length
          + pd.cards.side_deck.length := by
  obtain ⟨db₀, db₁, db₂, db₃, db₄, lm, mm, bm, rm, sm, lu, mu, bu, ru, su,
    heq₁, heq₂, heq₃, heq₄, heq₅, hleg, hmain, hbat, hrun, hside, hunm,
    hmatched, htotal, hacc⟩ := match_decklist_spec db pd m db' h
  have h₁ := matchSection_length _ _ _ _ _ _ heq₁
  have h₂ := matchSection_length _ _ _ _ _ _ heq₂
  have h₃ := matchSection_length _ _ _ _ _ _ heq₃
  have h₄ := matchSection_length _ _ _ _ _ _ heq₄
  have h₅ := matchSection_length _ _ _ _ _ _ heq₅
  have hulen : m.unmatched.length
      = lu.length + mu.length + bu.length + ru.length + su.length := by
    rw [hunm]
    simp [List.length_append]
    omega
  refine ⟨by omega, ?_, ?_, ?_⟩
  · rw [hacc]
    rcases Nat.eq_zero_or_pos m.stats.total_cards with hz | hp
    · rw [if_neg (show ¬ 0 < m.stats.total_cards by omega), if_pos hz]
    · rw [if_pos hp, if_neg (show ¬ m.stats.total_cards = 0 by omega)]
  · rw [hleg, hmain, hbat, hrun, hside]
    exact hmatched
  · omega

/-- Witness for C1: one matched and one unmatched card. -/
theorem claim1_match_decklist_stats_witness :
    ∃ m db', match_decklist dbOne pdTwo = .ok (m, db')
      ∧ m.stats.matched_cards + m.unmatched.length = m.stats.total_cards
      ∧ m.stats.accuracy = (if m.stats.total_cards = 0 then 0
          else (m.stats.matched_cards : ℚ) / (m.stats.total_cards : ℚ) * 100)
      ∧ m.stats.matched_cards
          = m.legend.length + m.main_deck.length + m.battlefields.length
            + m.runes.length + m.side_deck.length
      ∧ m.stats.total_cards
          = pdTwo.cards.legend.length + pdTwo.cards.main_deck.length
            + pdTwo.cards.battlefields.length + pdTwo.cards.runes.length
            + pdTwo.cards.side_deck.length := by
  obtain ⟨m, db', hm⟩ : ∃ m db', match_decklist dbOne pdTwo = .ok (m, db') :=
    ⟨_, _, rfl⟩
  exact ⟨m, db', hm, claim1_match_decklist_stats dbOne pdTwo m db' hm⟩

/-! ### Claim 10 — the constant zero OCR confidence -/

/-- Consolidation preserves the all-zero confidence of extracted cards. -/
theorem consolidate_conf (groups : List (String × List PCard))
    (h : ∀ g ∈ groups, ∀ c ∈ g.2, c.confidence = 0) :
    (∀ c ∈ (consolidate groups).legend, c.confidence = 0)
    ∧ (∀ c ∈ (consolidate groups).main_deck, c.confidence = 0)
    ∧ (∀ c ∈ (consolidate groups).battlefields, c.confidence = 0)
    ∧ (∀ c ∈ (consolidate groups).runes, c.confidence = 0)
    ∧ (∀ c ∈ (consolidate groups).side_deck, c.confidence = 0) := by
  have hflat : ∀ (p : String × List PCard → Bool) (c : PCard),
      c ∈ ((groups.filter p).map (·.2)).flatten → c.confidence = 0 := by
    intro p c hc
    obtain ⟨l, hl, hcl⟩ := List.mem_flatten.mp hc
    obtain ⟨g, hg, rfl⟩ := List.mem_map.mp hl
    exact h g (List.mem_filter.mp hg).1 c hcl
  have hlegsub : ∀ c ∈ (legendSplit
      ((groups.filter (fun g => g.1 = "legend_main")).map (·.2))).2,
      c.confidence = 0 := by
    intro c hc
    obtain ⟨l, hl, hcl⟩ := legendSplit_snd_sub _ c hc
    obtain ⟨g, hg, rfl⟩ := List.mem_map.mp hl
    exact h g (List.mem_filter.mp hg).1 c hcl
  refine ⟨?_, ?_, ?_, ?_, ?_⟩
  · rcases legendSplit_fst_cases
        ((groups.filter (fun g => g.1 = "legend_main")).map (·.2)) with
      hl | ⟨c₀, rest, extras, hEq, hl⟩
    · rw [consolidate_legend, hl]
      intro c hc
      cases hc
    · rw [consolidate_legend, hl]
      intro c hc
      rw [List.mem_singleton] at hc
      subst hc
      show c₀.confidence = 0
      have hmem : (c₀ :: rest)
          ∈ ((groups.filter (fun g => g.1 = "legend_main")).map (·.2)) := by
        rw [hEq]
        exact List.mem_cons_self _ _
      obtain ⟨g, hg, hg2⟩ := List.mem_map.mp hmem
      refine h g (List.mem_filter.mp hg).1 c₀ ?_
      rw [hg2]
      exact List.mem_cons_self _ _
  · rw [consolidate_main_deck]
    apply dedup_conf
    intro c hc
    rcases List.mem_append.mp hc with hc | hc
    · exact hlegsub c hc
    · exact hflat _ c hc
  · rw [consolidate_battlefields]
    intro c hc
    exact dedup_conf _ (fun d hd => hflat _ d hd) c (List.take_subset _ _ hc)
  · rw [consolidate_runes]
    apply dedup_conf
    intro c hc
    rcases List.mem_append.mp hc with hc | hc
    · exact hflat _ c hc
    · obtain ⟨l, hl, hcl⟩ := List.mem_flatten.mp hc
      obtain ⟨cs, hcs, rfl⟩ := List.mem_map.mp hl
      have hc' := (List.mem_filter.mp hcl).1
      obtain ⟨g, hg, rfl⟩ := List.mem_map.mp hcs
      exact h g (List.mem_filter.mp hg).1 c hc'
  · rw [consolidate_side_deck]
    apply dedup_conf
    intro c hc
    obtain ⟨l, hl, hcl⟩ := List.mem_flatten.mp hc
    obtain ⟨cs, hcs, rfl⟩ := List.mem_map.mp hl
    have hc' := (List.mem_filter.mp hcl).1
    obtain ⟨g, hg, rfl⟩ := List.mem_map.mp hcs
    exact h g (List.mem_filter.mp hg).1 c hc'

/-- C10: `ocr_card_box` stores the constant confidence 0.0 in every card
dict, and consequently the `ocr_confidence` of every matched card in a
decklist produced from the parser's pipeline is 0. -/
theorem claim10_ocr_confidence_zero :
    (∀ (card_name : Option String) (qty_text : String),
        (ocr_card_box card_name qty_text).confidence = 0)
    ∧ ∀ (inp : List SecInput) (player legend_name event date : Option String)
        (placement : Option Int) (db : Db) (m : MatchedDecklist) (db' : Db),
        match_decklist db
            { player := player, legend_name := legend_name, event := event,
              date := date, placement := placement,
              cards := consolidate (stage2 inp) } = .ok (m, db') →
        ∀ c ∈ m.legend ++ m.main_deck ++ m.battlefields ++ m.runes
            ++ m.side_deck, c.ocr_confidence = 0 := by
  constructor
  · intro _ _
    rfl
  · intro inp player legend_name event date placement db m db' h c hc
    obtain ⟨db₀, db₁, db₂, db₃, db₄, lm, mm, bm, rm, sm, lu, mu, bu, ru, su,
      heq₁, heq₂, heq₃, heq₄, heq₅, hleg, hmain, hbat, hrun, hside, _,
      _, _, _⟩ := match_decklist_spec _ _ _ _ h
    have hconf := consolidate_conf (stage2 inp) (stage2_conf inp)
    simp only [List.mem_append] at hc
    rcases hc with ((((hc | hc) | hc) | hc) | hc)
    · rw [hleg] at hc
      exact matchSection_conf _ _ _ _ _ _ heq₁ hconf.1 c hc
    · rw [hmain] at hc
      exact matchSection_conf _ _ _ _ _ _ heq₂ hconf.2.1 c hc
    · rw [hbat] at hc
      exact matchSection_conf _ _ _ _ _ _ heq₃ hconf.2.2.1 c hc
    · rw [hrun] at hc
      exact matchSection_conf _ _ _ _ _ _ heq₄ hconf.2.2.2.1 c hc
    · rw [hside] at hc
      exact matchSection_conf _ _ _ _ _ _ heq₅ hconf.2.2.2.2 c hc

/-- Witness for C10: a one-section parse matched against a one-card
database. -/
theorem claim10_ocr_confidence_zero_witness :
    ∃ m db', match_decklist dbOne
        { player := none, legend_name := none, event := none, date := none,
          placement := none,
          cards := consolidate (stage2 [⟨"legend_main", [⟨some "甲", "x3"⟩]⟩]) }
        = .ok (m, db')
      ∧ ∀ c ∈ m.legend ++ m.main_deck ++ m.battlefields ++ m.runes
          ++ m.side_deck, c.ocr_confidence = 0 := by
  obtain ⟨m, db', hm⟩ : ∃ m db', match_decklist dbOne
      { player := none, legend_name := none, event := none, date := none,
        placement := none,
        cards := consolidate (stage2 [⟨"legend_main", [⟨some "甲", "x3"⟩]⟩]) }
      = .ok (m, db') := ⟨_, _, rfl⟩
  exact ⟨m, db', hm, claim10_ocr_confidence_zero.2 _ none none none none none
    dbOne m db' hm⟩

/-- Witness for C9, Scenario E: two sections both classified `runes` collapse
to the first one, with one duplicates entry recording one removal. -/
theorem claim9_duplicate_collapse_witness :
    (detect_duplicate_sections [⟨"runes", 10⟩, ⟨"runes", 20⟩]).unique_sections
      = (dedupNames (([⟨"runes", 10⟩, ⟨"runes", 20⟩] : List Sec).map Sec.role)).filterMap
          (fun ro => [⟨"runes", 10⟩, ⟨"runes", 20⟩].find? (fun s => s.role == ro))
    ∧ ({ dtype := "runes", count := 2, kept_index := 0,
         removed_indices := [1] } : DupInfo).count
        = (([⟨"runes", 10⟩, ⟨"runes", 20⟩] : List Sec).filter
            (fun s => s.role == "runes")).length
    ∧ ({ dtype := "runes", count := 2, kept_index := 0,
         removed_indices := [1] } : DupInfo).removed_indices.length + 1
        = ({ dtype := "runes", count := 2, kept_index := 0,
             removed_indices := [1] } : DupInfo).count := by
  have h := claim9_duplicate_collapse [⟨"runes", 10⟩, ⟨"runes", 20⟩]
  have hd := h.2.2.2
    { dtype := "runes", count := 2, kept_index := 0, removed_indices := [1] }
    (by decide)
  exact ⟨h.1, hd.1, hd.2⟩
